import Mathlib

/-
Verification of the VampNet masked-token generation core
(src/vampnet/modules/transformer.py) against its specification.

Modelling conventions.

* Floating-point tensors are modelled over the exact rationals `ℚ`.
  Tensor values that can be `-inf` (filtered logits) live in
  `Logit := WithBot ℚ`; values that can be `-inf` or `+inf`
  (confidence grids) live in `Conf := WithBot (WithTop ℚ)`.
* The transcendental functions `exp` and `log` are not rational; every
  definition that the source builds on `torch.exp` / `torch.log` /
  `softmax` takes explicit function parameters `E lg : ℚ → ℚ` standing
  for the exponential and the logarithm on positive arguments.  The
  structure of each computation (which values are exponentiated,
  normalised, compared, discarded) is exactly the source's.
* Randomness is explicit: multinomial draws take a list `us` of uniform
  variates, Gumbel noise is derived from a list of uniform variates as
  in `gumbel_noise_like`.
* A batch is processed row-by-row independently by every operation in
  scope, so grids are modelled per batch element:
  `List (List ℕ)` with one row per codebook.
* Fallible tensor operations (index out of bounds in `take_along_dim` /
  `gather`) are modelled with `Option`.
* `codebook_flatten` / `codebook_unflatten` (vampnet/util.py) and
  `_gamma` (vampnet/mask.py) are not part of the provided sources;
  they are modelled from the spec (see their doc comments), and `_gamma`
  is kept as an explicit function parameter `gam`.
-/

set_option allowUnsafeReducibility true

attribute [semireducible] Rat.add Rat.mul Rat.inv Rat.div Rat.sub Rat.neg Rat.floor

/-- Logit values: a finite float or `-inf` (`⊥`), as produced by the
top-k / top-p / typical filters. -/
abbrev Logit : Type := WithBot ℚ

/-- Confidence values: a finite float, `-inf` (`⊥`) or `+inf` (`⊤`),
as used by the re-masking machinery. -/
abbrev Conf : Type := WithBot (WithTop ℚ)

/-- A finite rational as a `Conf` value. -/
def confFin (q : ℚ) : Conf := ((q : WithTop ℚ) : Conf)

/-- A finite rational as a `Logit` value. -/
def logitFin (q : ℚ) : Logit := (q : Logit)

/-- Models `torch.exp` on a `Logit` argument: `exp(-inf) = 0`, finite
values go through the exponential parameter `E`. -/
def expL (E : ℚ → ℚ) (x : Logit) : ℚ :=
  WithBot.recBotCoe 0 E x

/-- Models `torch.log` on a `Conf` argument: `log(+inf) = +inf`,
`log 0 = -inf`, positive finite values go through the logarithm
parameter `lg`.  (Negative arguments would be NaN in the source; they
never occur, since only probabilities are passed; they are mapped to
`-inf` here.) -/
def confLog (lg : ℚ → ℚ) (p : Conf) : Conf :=
  WithBot.recBotCoe ⊥
    (fun w => WithTop.recTopCoe (⊤ : Conf)
      (fun q => if 0 < q then confFin (lg q) else ⊥) w) p

/-- Adding a finite float to a `Conf` value, as IEEE arithmetic does:
`±inf + finite = ±inf`. -/
def confAddFin (p : Conf) (x : ℚ) : Conf :=
  WithBot.recBotCoe ⊥
    (fun w => WithTop.recTopCoe (⊤ : Conf) (fun q => confFin (q + x)) w) p

/-- Pointwise ternary zip, used for `torch.where(mask, a, b)` with an
extra argument. -/
def zipWith3 {α β γ δ : Type} (f : α → β → γ → δ) : List α → List β → List γ → List δ
  | a :: as, b :: bs, c :: cs => f a b c :: zipWith3 f as bs cs
  | _, _, _ => []

/-- Running cumulative sum, `torch.cumsum(_, dim=-1)` on one row. -/
def cumsum : List ℚ → List ℚ
  | [] => []
  | a :: t => a :: (cumsum t).map (a + ·)

/-- Modelled from the spec: `codebook_flatten` (vampnet/util.py, not in
src/) flattens the codebook and time dimensions of one batch element
into a single sequence "as `(time, codebook)` pairs", i.e. flat index
`t * C + c` holds grid cell `(c, t)`. -/
def codebook_flatten {α : Type} [Inhabited α] (g : List (List α)) : List α :=
  (List.range ((g.headD []).length * g.length)).map
    (fun j => (g.getD (j % g.length) []).getD (j / g.length) default)

/-- Modelled from the spec: `codebook_unflatten` (vampnet/util.py, not
in src/), the inverse reshape of `codebook_flatten` for `C` codebooks. -/
def codebook_unflatten {α : Type} [Inhabited α] (flat : List α) (C : ℕ) : List (List α) :=
  (List.range C).map
    (fun c => (List.range (flat.length / C)).map (fun t => flat.getD (t * C + c) default))

/-- `tensor.masked_fill(mask, v)` on a per-batch-element grid. -/
def maskedFill (g : List (List ℕ)) (m : List (List Bool)) (v : ℕ) : List (List ℕ) :=
  List.zipWith (List.zipWith (fun b x => if b then v else x)) m g

/-- `VampNet.codebook_idx_to_global_idx` (transformer.py lines 101-113):
records which cells hold the mask sentinel `vocab_size * n_codebooks`,
shifts every cell by `codebook_index * vocab_size`, then restores the
sentinel at the recorded cells. -/
def codebook_idx_to_global_idx (V nCodebooks : ℕ) (codes : List (List ℕ)) : List (List ℕ) :=
  let maskTok := V * nCodebooks
  let mask := codes.map (fun row => row.map (fun v => decide (v = maskTok)))
  let shifted := codes.enum.map (fun p => p.2.map (fun v => v + p.1 * V))
  List.zipWith (List.zipWith (fun b x => if b then maskTok else x)) mask shifted

-- length and indexing lemmas for the basic helpers

theorem zipWith3_length {α β γ δ : Type} (f : α → β → γ → δ) :
    ∀ (a : List α) (b : List β) (c : List γ),
      (zipWith3 f a b c).length = min (min a.length b.length) c.length
  | [], b, c => by simp [zipWith3]
  | a :: as, [], c => by simp [zipWith3]
  | a :: as, b :: bs, [] => by simp [zipWith3]
  | a :: as, b :: bs, c :: cs => by
    simp [zipWith3, zipWith3_length f as bs cs]
    omega

theorem zipWith3_getElem {α β γ δ : Type} (f : α → β → γ → δ) :
    ∀ (xs : List α) (ys : List β) (zs : List γ) (i : ℕ)
      (hx : i < xs.length) (hy : i < ys.length) (hz : i < zs.length)
      (hi : i < (zipWith3 f xs ys zs).length),
      (zipWith3 f xs ys zs).get ⟨i, hi⟩ = f (xs.get ⟨i, hx⟩) (ys.get ⟨i, hy⟩) (zs.get ⟨i, hz⟩)
  | x :: xs, y :: ys, z :: zs, 0, hx, hy, hz, hi => rfl
  | x :: xs, y :: ys, z :: zs, i + 1, hx, hy, hz, hi => by
    simpa [zipWith3] using
      zipWith3_getElem f xs ys zs i (by simpa using hx) (by simpa using hy)
        (by simpa using hz) (by simpa [zipWith3] using hi)

theorem zipWith_getD {α β γ : Type} (f : α → β → γ) (da : α) (db : β) (d : γ)
    (xs : List α) (ys : List β) (i : ℕ) (hx : i < xs.length) (hy : i < ys.length) :
    (List.zipWith f xs ys).getD i d = f (xs.getD i da) (ys.getD i db) := by
  rw [List.getD_eq_getElem _ d (by rw [List.length_zipWith]; omega),
    List.getElem_zipWith, List.getD_eq_getElem _ da hx, List.getD_eq_getElem _ db hy]

theorem codebook_flatten_length {α : Type} [Inhabited α] (g : List (List α)) :
    (codebook_flatten g).length = (g.headD []).length * g.length := by
  simp [codebook_flatten]

theorem codebook_flatten_getD {α : Type} [Inhabited α] (g : List (List α))
    (c t : ℕ) (hc : c < g.length) (ht : t < (g.headD []).length) :
    (codebook_flatten g).getD (t * g.length + c) default = (g.getD c []).getD t default := by
  have hlt : t * g.length + c < (g.headD []).length * g.length := by
    calc t * g.length + c < t * g.length + g.length := by omega
    _ = (t + 1) * g.length := by ring
    _ ≤ (g.headD []).length * g.length := Nat.mul_le_mul_right _ (by omega)
  rw [List.getD_eq_getElem _ _ (by simpa [codebook_flatten_length] using hlt)]
  simp only [codebook_flatten, List.getElem_map, List.getElem_range]
  rw [Nat.add_comm (t * g.length) c, Nat.add_mul_mod_self_right, Nat.mod_eq_of_lt hc,
    Nat.add_mul_div_right _ _ (by omega : 0 < g.length), Nat.div_eq_of_lt hc, Nat.zero_add]

theorem codebook_unflatten_length {α : Type} [Inhabited α] (flat : List α) (C : ℕ) :
    (codebook_unflatten flat C).length = C := by
  simp [codebook_unflatten]

theorem codebook_unflatten_row_length {α : Type} [Inhabited α] (flat : List α) (C c : ℕ)
    (hc : c < C) :
    ((codebook_unflatten flat C).getD c []).length = flat.length / C := by
  have h1 : c < (codebook_unflatten flat C).length := by
    rw [codebook_unflatten_length]; exact hc
  rw [List.getD_eq_getElem (codebook_unflatten flat C) [] h1]
  simp [codebook_unflatten]

theorem codebook_unflatten_getD {α : Type} [Inhabited α] (flat : List α) (C c t : ℕ)
    (hc : c < C) (ht : t < flat.length / C) :
    ((codebook_unflatten flat C).getD c []).getD t default = flat.getD (t * C + c) default := by
  have h1 : c < (codebook_unflatten flat C).length := by
    rw [codebook_unflatten_length]; exact hc
  rw [List.getD_eq_getElem (codebook_unflatten flat C) [] h1]
  have h2 : (codebook_unflatten flat C)[c] =
      (List.range (flat.length / C)).map (fun t => flat.getD (t * C + c) default) := by
    simp [codebook_unflatten]
  rw [h2]
  have h3 : t < ((List.range (flat.length / C)).map
      (fun t => flat.getD (t * C + c) default)).length := by simpa using ht
  rw [List.getD_eq_getElem _ default h3]
  simp

/-- C10: `codebook_idx_to_global_idx` adds `codebook_index * vocab_size`
to every cell holding a valid vocabulary index, leaves mask-sentinel
cells equal to `mask_token = vocab_size * n_codebooks`, and never moves
the sentinel into the valid global index range `[0, vocab_size * n_codebooks)`. -/
theorem c10_codebook_idx_to_global_idx (V nCodebooks : ℕ) (codes : List (List ℕ))
    (c t : ℕ) (hc : c < codes.length) (ht : t < (codes.getD c []).length) :
    ((codes.getD c []).getD t 0 = V * nCodebooks →
      ((codebook_idx_to_global_idx V nCodebooks codes).getD c []).getD t 0 = V * nCodebooks) ∧
    ((codes.getD c []).getD t 0 ≠ V * nCodebooks →
      ((codebook_idx_to_global_idx V nCodebooks codes).getD c []).getD t 0 =
        (codes.getD c []).getD t 0 + c * V) ∧
    ((codes.getD c []).getD t 0 < V → c < nCodebooks →
      ((codebook_idx_to_global_idx V nCodebooks codes).getD c []).getD t 0 < V * nCodebooks) := by
  have hrow : (codes.getD c []) = codes[c] := List.getD_eq_getElem codes [] hc
  have htc : t < codes[c].length := by rwa [hrow] at ht
  have hcell :
      ((codebook_idx_to_global_idx V nCodebooks codes).getD c []).getD t 0 =
        (if codes[c][t] = V * nCodebooks then V * nCodebooks else codes[c][t] + c * V) := by
    have hlc : c < (codebook_idx_to_global_idx V nCodebooks codes).length := by
      simp only [codebook_idx_to_global_idx]
      simpa using hc
    rw [List.getD_eq_getElem (codebook_idx_to_global_idx V nCodebooks codes) [] hlc]
    have hrowc : (codebook_idx_to_global_idx V nCodebooks codes)[c] =
        List.zipWith (fun b x => if b then V * nCodebooks else x)
          (codes[c].map (fun v => decide (v = V * nCodebooks)))
          (codes[c].map (fun v => v + c * V)) := by
      simp only [codebook_idx_to_global_idx]
      rw [List.getElem_zipWith]
      congr 1
      · rw [List.getElem_map]
      · rw [List.getElem_map, List.getElem_enum]
    rw [hrowc]
    have hlt : t < (List.zipWith (fun b x => if b then V * nCodebooks else x)
        (codes[c].map (fun v => decide (v = V * nCodebooks)))
        (codes[c].map (fun v => v + c * V))).length := by simpa using htc
    rw [List.getD_eq_getElem _ 0 hlt, List.getElem_zipWith]
    simp
  have hcol : codes[c].getD t 0 = codes[c][t] := List.getD_eq_getElem _ 0 htc
  constructor
  · intro h
    rw [hrow, hcol] at h
    rw [hcell, if_pos h]
  constructor
  · intro h
    rw [hrow, hcol] at h
    rw [hcell, if_neg h, hrow, hcol]
  · intro hv hcn
    rw [hrow, hcol] at hv
    have hne : codes[c][t] ≠ V * nCodebooks := by
      intro he
      rw [he] at hv
      have hVpos : 0 < V := by omega
      nlinarith
    rw [hcell, if_neg hne]
    calc codes[c][t] + c * V < V + c * V := by omega
    _ = (c + 1) * V := by ring
    _ ≤ nCodebooks * V := Nat.mul_le_mul_right _ (by omega)
    _ = V * nCodebooks := Nat.mul_comm _ _

/-- Witness for C10 at a concrete grid: `V = 3`, two codebooks,
`codes = [[1, 6], [2, 0]]` (cell `(0,1)` is the sentinel `6`). -/
theorem c10_witness :
    (((codebook_idx_to_global_idx 3 2 [[1, 6], [2, 0]]).getD 0 []).getD 1 0 = 6) ∧
    (((codebook_idx_to_global_idx 3 2 [[1, 6], [2, 0]]).getD 1 []).getD 0 0 = 2 + 1 * 3) ∧
    (((codebook_idx_to_global_idx 3 2 [[1, 6], [2, 0]]).getD 1 []).getD 0 0 < 6) := by
  refine ⟨?_, ?_, ?_⟩
  · exact (c10_codebook_idx_to_global_idx 3 2 [[1, 6], [2, 0]] 0 1 (by decide) (by decide)).1
      (by decide)
  · exact (c10_codebook_idx_to_global_idx 3 2 [[1, 6], [2, 0]] 1 0 (by decide) (by decide)).2.1
      (by decide)
  · exact (c10_codebook_idx_to_global_idx 3 2 [[1, 6], [2, 0]] 1 0 (by decide) (by decide)).2.2
      (by decide) (by decide)

-- ## Sampling primitives (transformer.py lines 567-649, 691-726)

/-- `gumbel_noise_like` (transformer.py lines 28-31): turns uniform
variates into Gumbel noise `-log(-log u)`. -/
def gumbel_noise_like (lg : ℚ → ℚ) (uniforms : List ℚ) : List ℚ :=
  uniforms.map (fun u => -(lg (-(lg u))))

/-- `x / temperature` on a `Logit` value, for positive temperature:
`-inf / t = -inf`. -/
def divLogit (x : Logit) (t : ℚ) : Logit :=
  WithBot.recBotCoe ⊥ (fun q => logitFin (q / t)) x

theorem divLogit_one (x : Logit) : divLogit x 1 = x := by
  induction x using WithBot.recBotCoe with
  | bot => rfl
  | coe q => simp [divLogit, logitFin]

/-- `softmax` over a row of (possibly `-inf`) logits: exponentiate with
`E` (`exp(-inf) = 0`) and normalise by the row sum. -/
def softmaxL (E : ℚ → ℚ) (l : List Logit) : List ℚ :=
  (l.map (expL E)).map (fun x => x / (l.map (expL E)).sum)

/-- `softmax` over a row of finite logits. -/
def softmaxQ (E : ℚ → ℚ) (l : List ℚ) : List ℚ :=
  (l.map E).map (fun x => x / (l.map E).sum)

/-- `torch.argmax(row)`: index of the first occurrence of the maximal
value. -/
def argmaxRow : List Logit → ℕ
  | [] => 0
  | x :: rest => if rest.all (fun y => decide (y ≤ x)) then 0 else argmaxRow rest + 1

/-- `torch.multinomial(probs, 1)` with the uniform variate `u` made
explicit: the first index whose cumulative probability exceeds `u`
(the last index if none does). -/
def multinomialPick : List ℚ → ℚ → ℕ
  | [], _ => 0
  | [_], _ => 0
  | p :: ps, u => if u < p then 0 else multinomialPick ps (u - p) + 1

/-- `List.mapM` over `Option`, written as a plain recursion. -/
def listMapM {α β : Type} (f : α → Option β) : List α → Option (List β)
  | [] => some []
  | a :: t =>
    match f a, listMapM f t with
    | some b, some bs => some (b :: bs)
    | _, _ => none

/-- Top-k filtering (transformer.py lines 611-613): keep entries not
below the `k`-th largest, set the rest to `-inf`.  `topk` fails unless
`1 ≤ k ≤ len`. -/
def topKRow (k : ℕ) (row : List Logit) : Option (List Logit) :=
  if 0 < k ∧ k ≤ row.length then
    let sorted := row.insertionSort (· ≤ ·)
    let thr := sorted.getD (row.length - k) ⊥
    some (row.map (fun x => if x < thr then ⊥ else x))
  else none

/-- Sort-key relation for descending sort of `(index, logit)` pairs by
logit, used to model `logits.sort(descending=True)` with indices. -/
def sndGE (a b : ℕ × Logit) : Prop := b.2 ≤ a.2

instance : DecidableRel sndGE := fun a b => inferInstanceAs (Decidable (b.2 ≤ a.2))

instance : IsTotal (ℕ × Logit) sndGE := ⟨fun a b => (le_total b.2 a.2).imp id id⟩

instance : IsTrans (ℕ × Logit) sndGE := ⟨fun _ _ _ h1 h2 => le_trans h2 h1⟩

/-- The removal set of top-p (nucleus) filtering (transformer.py lines
616-631): sort `(index, logit)` pairs descending by logit, flag sorted
positions whose predecessor-inclusive cumulative softmax mass exceeds
`p` (right-shifted, so the first position is never flagged), and
collect the original indices of the flagged positions (the `scatter`). -/
def topPRemovedIdx (E : ℚ → ℚ) (p : ℚ) (row : List Logit) : List ℕ :=
  let pairs := row.enum.insertionSort sndGE
  let cum := cumsum (softmaxL E (pairs.map Prod.snd))
  let removeSorted := (List.range pairs.length).map
    (fun j => decide (j ≠ 0 ∧ p < cum.getD (j - 1) 0))
  ((pairs.map Prod.fst).zip removeSorted).filterMap
    (fun pr => if pr.2 then some pr.1 else none)

/-- Top-p (nucleus) filtering: positions in the removal set become
`-inf`, all others keep their logit. -/
def topPRow (E : ℚ → ℚ) (p : ℚ) (row : List Logit) : List Logit :=
  row.enum.map (fun pr => if pr.1 ∈ topPRemovedIdx E p row then (⊥ : Logit) else pr.2)

/-- Sort-key relation for ascending sort of `(index, value)` pairs by
value. -/
def sndLE (a b : ℕ × ℚ) : Prop := a.2 ≤ b.2

instance : DecidableRel sndLE := fun a b => inferInstanceAs (Decidable (a.2 ≤ b.2))

instance : IsTotal (ℕ × ℚ) sndLE := ⟨fun a b => le_total a.2 b.2⟩

instance : IsTrans (ℕ × ℚ) sndLE := ⟨fun _ _ _ h1 h2 => le_trans h1 h2⟩

/-- The ranking stage of `typical_filter` (transformer.py lines
702-707): per-token absolute deviation of negative log-probability from
the row entropy, paired with original indices and sorted ascending.
(The source's `nansum` is a plain sum here: over exact rationals no
NaNs arise.) -/
def typicalSortedPairs (E lg : ℚ → ℚ) (row : List ℚ) : List (ℕ × ℚ) :=
  let s := (row.map E).sum
  let xnorm := row.map (fun q => q - lg s)
  let xnormP := xnorm.map E
  let entropy := -((List.zipWith (fun a b => a * b) xnorm xnormP).sum)
  let cvals := xnorm.map (fun x => |(-x) - entropy|)
  cvals.enum.insertionSort sndLE

/-- `last_ind` of `typical_filter` (lines 708-712): how many entries of
the cumulative softmax mass of the gathered logits stay below
`typical_mass`. -/
def typicalLastInd (E lg : ℚ → ℚ) (typical_mass : ℚ) (row : List ℚ) : ℕ :=
  let idxs := (typicalSortedPairs E lg row).map Prod.fst
  let gathered := idxs.map (fun i => row.getD i 0)
  (cumsum (softmaxQ E gathered)).countP (fun x => decide (x < typical_mass))

/-- The removal set of `typical_filter` (lines 713-720): sorted ranks
whose deviation exceeds the one at `last_ind` (never the first
`typical_min_tokens` ranks when `typical_min_tokens > 1`), scattered
back to original indices. -/
def typicalRemovedIdx (E lg : ℚ → ℚ) (typical_mass : ℚ) (typical_min_tokens : ℕ)
    (row : List ℚ) : List ℕ :=
  let cpairs := typicalSortedPairs E lg row
  let csorted := cpairs.map Prod.snd
  let idxs := cpairs.map Prod.fst
  let lastInd := typicalLastInd E lg typical_mass row
  let thr : ℚ := csorted.getD lastInd 0
  let removeSorted := (List.range csorted.length).map
    (fun j => if 1 < typical_min_tokens ∧ j < typical_min_tokens then false
      else decide (thr < csorted.getD j 0))
  (idxs.zip removeSorted).filterMap (fun pr => if pr.2 then some pr.1 else none)

/-- `typical_filter` (transformer.py lines 691-726) on one row (the
source processes the `(batch*time)` rows independently).  The `gather`
at `last_ind` fails when `last_ind` is out of range, modelled by
`none`. -/
def typical_filter (E lg : ℚ → ℚ) (typical_mass : ℚ) (typical_min_tokens : ℕ)
    (row : List ℚ) : Option (List Logit) :=
  if typicalLastInd E lg typical_mass row <
      ((typicalSortedPairs E lg row).map Prod.snd).length then
    some (row.enum.map
      (fun pr => if pr.1 ∈ typicalRemovedIdx E lg typical_mass typical_min_tokens row
        then (⊥ : Logit) else logitFin pr.2))
  else none

/-- The top-p stage of `sample_from_logits` (lines 616-631): applied
only when `top_p` is given and `top_p < 1`, otherwise silently skipped. -/
def applyTopP (E : ℚ → ℚ) (top_p : Option ℚ) (rs : List (List Logit)) : List (List Logit) :=
  match top_p with
  | some p => if p < 1 then rs.map (topPRow E p) else rs
  | none => rs

/-- The top-k and top-p stages of `sample_from_logits` (lines 610-631):
the logit rows actually used by the softmax/argmax/multinomial stages. -/
def appliedFilters (E : ℚ → ℚ) (top_k : Option ℕ) (top_p : Option ℚ)
    (logits : List (List ℚ)) : Option (List (List Logit)) :=
  let rows := logits.map (fun r => r.map logitFin)
  match top_k with
  | some k =>
    match listMapM (topKRow k) rows with
    | some rs => some (applyTopP E top_p rs)
    | none => none
  | none => some (applyTopP E top_p rows)

/-- `sample_from_logits` (transformer.py lines 567-649).  Note the
faithful modelling of line 604-608: `typical_filter` is called but its
result is never bound — only a raised error would propagate, the
filtered logits are discarded. -/
def sample_from_logits (E lg : ℚ → ℚ) (logits : List (List ℚ)) (sample : Bool)
    (temperature : ℚ) (top_k : Option ℕ) (top_p : Option ℚ)
    (typical_filtering : Bool) (typical_mass : ℚ) (typical_min_tokens : ℕ)
    (us : List ℚ) : Option (List ℕ × List ℚ) :=
  match (if typical_filtering
      then (listMapM (typical_filter E lg typical_mass typical_min_tokens) logits).map
        (fun _ => ())
      else some ()) with
  | none => none
  | some _ =>
    match appliedFilters E top_k top_p logits with
    | none => none
    | some rows =>
      let probs := if 0 < temperature
        then rows.map (fun r => softmaxL E (r.map (fun x => divLogit x temperature)))
        else rows.map (softmaxL E)
      let tokens := if sample then List.zipWith multinomialPick probs us
        else rows.map argmaxRow
      let tokenProbs := List.zipWith (fun p t => p.getD t 0) probs tokens
      some (tokens, tokenProbs)

theorem map_divLogit_one (r : List Logit) : r.map (fun x => divLogit x 1) = r := by
  simp [divLogit_one]

theorem sample_from_logits_nonpos_temp (E lg : ℚ → ℚ) (logits : List (List ℚ))
    (sample : Bool) (t1 t2 : ℚ) (h1 : ¬ 0 < t1) (h2 : ¬ 0 < t2)
    (tk : Option ℕ) (tp : Option ℚ) (tf : Bool) (tm : ℚ) (tmt : ℕ) (us : List ℚ) :
    sample_from_logits E lg logits sample t1 tk tp tf tm tmt us =
    sample_from_logits E lg logits sample t2 tk tp tf tm tmt us := by
  unfold sample_from_logits
  cases (if tf
      then (listMapM (typical_filter E lg tm tmt) logits).map (fun _ => ())
      else some ()) with
  | none => rfl
  | some u =>
    cases appliedFilters E tk tp logits with
    | none => rfl
    | some rows => simp only [if_neg h1, if_neg h2]

/-- C1 (amended): at `temperature = 0` the division-by-temperature
branch is not taken — the computation agrees with the benign
`temperature = 1` path (softmax of the unscaled filtered logits) — and
when `sample = false` the returned token of each row is the argmax of
the filtered logits.  (When `sample = true` the source still draws
multinomially, see `c1_counterexample`.) -/
theorem c1_zero_temperature_amended :
    (∀ (E lg : ℚ → ℚ) (logits : List (List ℚ)) (sample : Bool) (tk : Option ℕ)
      (tp : Option ℚ) (tf : Bool) (tm : ℚ) (tmt : ℕ) (us : List ℚ),
      sample_from_logits E lg logits sample 0 tk tp tf tm tmt us =
      sample_from_logits E lg logits sample 1 tk tp tf tm tmt us) ∧
    (∀ (E lg : ℚ → ℚ) (logits : List (List ℚ)) (tk : Option ℕ) (tp : Option ℚ)
      (tf : Bool) (tm : ℚ) (tmt : ℕ) (us : List ℚ) (toks : List ℕ) (ps : List ℚ)
      (frows : List (List Logit)),
      sample_from_logits E lg logits false 0 tk tp tf tm tmt us = some (toks, ps) →
      appliedFilters E tk tp logits = some frows →
      toks = frows.map argmaxRow ∧
      ps = List.zipWith (fun p t => p.getD t 0) (frows.map (softmaxL E)) toks) := by
  constructor
  · intro E lg logits sample tk tp tf tm tmt us
    unfold sample_from_logits
    cases (if tf
        then (listMapM (typical_filter E lg tm tmt) logits).map (fun _ => ())
        else some ()) with
    | none => rfl
    | some u =>
      cases appliedFilters E tk tp logits with
      | none => rfl
      | some rows =>
        simp only [if_neg (lt_irrefl (0 : ℚ)), if_pos (one_pos (α := ℚ))]
        have hrw : rows.map (fun r => softmaxL E (r.map (fun x => divLogit x 1))) =
            rows.map (softmaxL E) :=
          List.map_congr_left (fun r _ => by rw [map_divLogit_one])
        rw [hrw]
  · intro E lg logits tk tp tf tm tmt us toks ps frows h hf
    unfold sample_from_logits at h
    revert h
    cases (if tf
        then (listMapM (typical_filter E lg tm tmt) logits).map (fun _ => ())
        else some ()) with
    | none => intro h; exact absurd h (by simp)
    | some u =>
      rw [hf]
      intro h
      simp only [if_neg (lt_irrefl (0 : ℚ)), Bool.false_eq_true, if_false,
        Option.some_inj] at h
      obtain ⟨h1, h2⟩ := Prod.mk.injEq _ _ _ _ ▸ h
      exact ⟨h1.symm ▸ rfl, by rw [← h2, ← h1]⟩

/-- Counterexample to C1 as stated: at `temperature = 0` with
`sample = true` the source draws from the unscaled softmax instead of
taking the argmax — with equal-weight logits `[1, 0]` and uniform
variate `3/4` the returned token is `1`, while the argmax of the
(unchanged) filtered logits is `0`. -/
theorem c1_counterexample :
    sample_from_logits (fun _ => 1) (fun _ => 0) [[1, 0]] true 0 none none false 0 1
      [3/4] = some ([1], [1/2]) ∧
    appliedFilters (fun _ => 1) none none [[1, 0]] = some [[logitFin 1, logitFin 0]] ∧
    [[logitFin 1, logitFin 0]].map argmaxRow = [0] ∧ (1 : ℕ) ≠ 0 := by
  refine ⟨by decide, by decide, by decide, by decide⟩

/-- Witness for C1: a concrete `sample = false`, `temperature = 0` call
whose token is derived, through the theorem, to be the per-row argmax. -/
theorem c1_witness :
    sample_from_logits (fun _ => 1) (fun _ => 0) [[2, 5]] false 0 none none false 0 1 []
      = some ([1], [1/2]) ∧
    [1] = [[logitFin 2, logitFin 5]].map argmaxRow := by
  have h1 : sample_from_logits (fun _ => 1) (fun _ => 0) [[2, 5]] false 0 none none
      false 0 1 [] = some ([1], [1/2]) := by decide
  have h2 : appliedFilters (fun _ => 1) none none [[2, 5]] =
      some [[logitFin 2, logitFin 5]] := by decide
  exact ⟨h1,
    (c1_zero_temperature_amended.2 _ _ _ _ _ _ _ _ _ _ _ _ h1 h2).1⟩

/-- C2 (code bug): `sample_from_logits` calls `typical_filter` but
discards its result, so whenever the call itself succeeds the
`typical_filtering` flag has no effect on the output — the subsequent
top-k/top-p/softmax/sampling stages consume the unfiltered logits.
The second conjunct shows the filter is not a no-op: on `[1, 2, 3]`
with mass `0.15` it would have removed two tokens. -/
theorem c2_typical_filter_result_discarded :
    (∀ (E lg : ℚ → ℚ) (logits : List (List ℚ)) (sample : Bool) (temperature : ℚ)
      (tk : Option ℕ) (tp : Option ℚ) (tm : ℚ) (tmt : ℕ) (us : List ℚ),
      (listMapM (typical_filter E lg tm tmt) logits).isSome = true →
      sample_from_logits E lg logits sample temperature tk tp true tm tmt us =
      sample_from_logits E lg logits sample temperature tk tp false tm tmt us) ∧
    typical_filter (fun _ => 1) (fun _ => 0) (3/20) 1 [1, 2, 3] =
      some [⊥, ⊥, logitFin 3] := by
  constructor
  · intro E lg logits sample temperature tk tp tm tmt us h
    obtain ⟨v, hv⟩ := Option.isSome_iff_exists.mp h
    unfold sample_from_logits
    simp [hv]
  · decide

/-- Witness for C2: at a concrete input on which `typical_filter`
succeeds (and would filter), the flag makes no difference. -/
theorem c2_witness :
    sample_from_logits (fun _ => 1) (fun _ => 0) [[1, 2, 3]] true 1 none none true
      (3/20) 1 [0] =
    sample_from_logits (fun _ => 1) (fun _ => 0) [[1, 2, 3]] true 1 none none false
      (3/20) 1 [0] :=
  c2_typical_filter_result_discarded.1 _ _ _ _ _ _ _ _ _ _ (by decide)

/-- The only configuration check performed at `VampNet.__init__`
(transformer.py line 60): the `embedding_dim % n_codebooks` assert. -/
def vampnet_init_check (embedding_dim n_codebooks : ℕ) : Except String Unit :=
  if embedding_dim % n_codebooks = 0 then Except.ok ()
  else Except.error "embedding_dim must be divisible by n_codebooks"

/-- C8 (amended): only the `embedding_dim` divisibility assert exists.
A negative `temperature` is not rejected: `sample_from_logits` silently
behaves exactly as `temperature = 0` (unscaled softmax branch).  A
`top_p ≥ 1` is not rejected: nucleus filtering is silently skipped,
identically to passing no `top_p` at all. -/
theorem c8_validation_amended :
    (∀ e n : ℕ, vampnet_init_check e n = Except.ok () ↔ e % n = 0) ∧
    (∀ (E lg : ℚ → ℚ) (logits : List (List ℚ)) (sample : Bool) (tk : Option ℕ)
      (tp : Option ℚ) (tf : Bool) (tm : ℚ) (tmt : ℕ) (us : List ℚ),
      sample_from_logits E lg logits sample (-1) tk tp tf tm tmt us =
      sample_from_logits E lg logits sample 0 tk tp tf tm tmt us) ∧
    (∀ (E lg : ℚ → ℚ) (logits : List (List ℚ)) (sample : Bool) (temperature : ℚ)
      (tk : Option ℕ) (p : ℚ) (tf : Bool) (tm : ℚ) (tmt : ℕ) (us : List ℚ),
      1 ≤ p →
      sample_from_logits E lg logits sample temperature tk (some p) tf tm tmt us =
      sample_from_logits E lg logits sample temperature tk none tf tm tmt us) := by
  refine ⟨?_, ?_, ?_⟩
  · intro e n
    unfold vampnet_init_check
    by_cases h : e % n = 0 <;> simp [h]
  · intro E lg logits sample tk tp tf tm tmt us
    exact sample_from_logits_nonpos_temp E lg logits sample (-1) 0 (by norm_num)
      (lt_irrefl 0) tk tp tf tm tmt us
  · intro E lg logits sample temperature tk p tf tm tmt us hp
    have hap : applyTopP E (some p) = applyTopP E none := by
      funext rs
      simp [applyTopP, not_lt.mpr hp]
    unfold sample_from_logits appliedFilters
    rw [hap]

/-- Counterexample to C8 as stated: a call with the invalid
`temperature = -1` is not rejected — it succeeds and returns a sample. -/
theorem c8_counterexample :
    (sample_from_logits (fun _ => 1) (fun _ => 0) [[0, 1]] true (-1) none none false 0 1
      [0]).isSome = true := by decide

/-- Witness for C8 at concrete inputs. -/
theorem c8_witness :
    vampnet_init_check 768 4 = Except.ok () ∧
    (sample_from_logits (fun _ => 1) (fun _ => 0) [[0, 1]] true (-1) none none false 0 1
      [0] =
     sample_from_logits (fun _ => 1) (fun _ => 0) [[0, 1]] true 0 none none false 0 1
      [0]) ∧
    (sample_from_logits (fun _ => 1) (fun _ => 0) [[0, 1]] true 1 none (some (3/2)) false
      0 1 [0] =
     sample_from_logits (fun _ => 1) (fun _ => 0) [[0, 1]] true 1 none none false 0 1
      [0]) :=
  ⟨(c8_validation_amended.1 768 4).mpr (by decide),
   c8_validation_amended.2.1 _ _ _ _ _ _ _ _ _ _,
   c8_validation_amended.2.2 _ _ _ _ _ _ _ _ _ _ _ (by norm_num)⟩

-- ## Re-masking by randomized top-k (transformer.py lines 653-689)

/-- The noisy confidence grid of `mask_by_random_topk`:
`log(probs) + temperature * gumbel_noise`, with the Gumbel noise derived
from explicit uniform variates. -/
def topkConfidence (lg : ℚ → ℚ) (probs : List Conf) (temperature : ℚ)
    (uniforms : List ℚ) : List Conf :=
  List.zipWith (fun p n => confAddFin (confLog lg p) (temperature * n)) probs
    (gumbel_noise_like lg uniforms)

/-- `mask_by_random_topk` (transformer.py lines 653-689): sort the noisy
confidences, read the cut-off at index `num_to_mask`
(`take_along_dim` fails when the index is out of range, modelled by
`none`), and mask the positions with confidence strictly below the
cut-off. -/
def mask_by_random_topk (lg : ℚ → ℚ) (num_to_mask : ℤ) (probs : List Conf)
    (temperature : ℚ) (uniforms : List ℚ) : Option (List Bool) :=
  let confidence := topkConfidence lg probs temperature uniforms
  let sorted := confidence.insertionSort (· ≤ ·)
  if 0 ≤ num_to_mask ∧ num_to_mask.toNat < sorted.length then
    let cutOff := sorted.getD num_to_mask.toNat ⊥
    some (confidence.map (fun c => decide (c < cutOff)))
  else none

theorem count_true_map {α : Type} (f : α → Bool) (l : List α) :
    (l.map f).count true = l.countP f := by
  induction l with
  | nil => rfl
  | cons a t ih => cases h : f a <;> simp [List.count_cons, List.countP_cons, ih, h]

theorem sorted_countP_lt_le {α : Type} [LinearOrder α] :
    ∀ (l : List α) (k : ℕ) (hk : k < l.length), l.Sorted (· ≤ ·) →
      l.countP (fun c => decide (c < l.get ⟨k, hk⟩)) ≤ k
  | [], k, hk, _ => by simp at hk
  | a :: t, 0, hk, hs => by
    have hta := (List.sorted_cons.mp hs).1
    have h0 : (a :: t).countP (fun c => decide (c < a)) = 0 :=
      List.countP_eq_zero.mpr (by
        intro x hx
        simp only [decide_eq_true_eq]
        rcases List.mem_cons.mp hx with h | h
        · exact h ▸ lt_irrefl a
        · exact not_lt.mpr (hta x h))
    simpa using Nat.le_of_eq h0
  | a :: t, k + 1, hk, hs => by
    have htk : k < t.length := by simpa using hk
    have ih := sorted_countP_lt_le t k htk (List.sorted_cons.mp hs).2
    have hget : (a :: t).get ⟨k + 1, hk⟩ = t.get ⟨k, htk⟩ := rfl
    rw [hget, List.countP_cons]
    split <;> omega

theorem sorted_nodup_countP_lt_eq {α : Type} [LinearOrder α] :
    ∀ (l : List α) (k : ℕ) (hk : k < l.length), l.Sorted (· ≤ ·) → l.Nodup →
      l.countP (fun c => decide (c < l.get ⟨k, hk⟩)) = k
  | [], k, hk, _, _ => by simp at hk
  | a :: t, 0, hk, hs, hn => by
    have hta := (List.sorted_cons.mp hs).1
    exact List.countP_eq_zero.mpr (by
      intro x hx
      simp only [decide_eq_true_eq]
      rcases List.mem_cons.mp hx with h | h
      · exact h ▸ lt_irrefl a
      · exact not_lt.mpr (hta x h))
  | a :: t, k + 1, hk, hs, hn => by
    have htk : k < t.length := by simpa using hk
    have ih := sorted_nodup_countP_lt_eq t k htk (List.sorted_cons.mp hs).2
      (List.nodup_cons.mp hn).2
    rw [List.countP_cons]
    have hget : (a :: t).get ⟨k + 1, hk⟩ = t.get ⟨k, htk⟩ := rfl
    rw [hget]
    have hmem : t.get ⟨k, htk⟩ ∈ t := List.get_mem t k htk
    have hle : a ≤ t.get ⟨k, htk⟩ := (List.sorted_cons.mp hs).1 _ hmem
    have hne : a ≠ t.get ⟨k, htk⟩ := by
      intro he
      exact (List.nodup_cons.mp hn).1 (he ▸ hmem)
    have hlt : a < t.get ⟨k, htk⟩ := lt_of_le_of_ne hle hne
    rw [ih, if_pos (by simpa using hlt)]

/-- C5 (amended): whenever `mask_by_random_topk` succeeds and the noisy
confidences of the row are pairwise distinct, the returned mask marks
exactly `num_to_mask` positions — precisely those whose noisy
confidence lies strictly below the `num_to_mask`-th order statistic of
the row.  (With tied confidences fewer than `num_to_mask` positions can
be marked, see `c5_counterexample`.) -/
theorem c5_mask_by_random_topk_amended :
    ∀ (lg : ℚ → ℚ) (k : ℤ) (probs : List Conf) (temperature : ℚ) (uniforms : List ℚ)
      (mask : List Bool),
      mask_by_random_topk lg k probs temperature uniforms = some mask →
      (topkConfidence lg probs temperature uniforms).Nodup →
      mask.count true = k.toNat ∧
      ∀ (j : ℕ) (hj : j < mask.length),
        mask.get ⟨j, hj⟩ = true ↔
          (topkConfidence lg probs temperature uniforms).getD j ⊥ <
          ((topkConfidence lg probs temperature uniforms).insertionSort
            (· ≤ ·)).getD k.toNat ⊥ := by
  intro lg k probs temperature uniforms mask h hn
  unfold mask_by_random_topk at h
  set conf := topkConfidence lg probs temperature uniforms with hconf
  by_cases hcond : 0 ≤ k ∧ k.toNat < (conf.insertionSort (· ≤ ·)).length
  · rw [if_pos hcond] at h
    have hmask : mask = conf.map
        (fun c => decide (c < (conf.insertionSort (· ≤ ·)).getD k.toNat ⊥)) :=
      (Option.some_inj.mp h).symm
    subst hmask
    have hklt : k.toNat < (conf.insertionSort (· ≤ ·)).length := hcond.2
    have hgetD : (conf.insertionSort (· ≤ ·)).getD k.toNat ⊥ =
        (conf.insertionSort (· ≤ ·)).get ⟨k.toNat, hklt⟩ := by
      rw [List.getD_eq_getElem _ ⊥ hklt]
      simp
    constructor
    · rw [count_true_map]
      have hperm : (conf.insertionSort (· ≤ ·)).Perm conf :=
        List.perm_insertionSort _ _
      rw [← hperm.countP_eq]
      have := sorted_nodup_countP_lt_eq (conf.insertionSort (· ≤ ·)) k.toNat hklt
        (List.sorted_insertionSort _ _) (hperm.nodup_iff.mpr hn)
      rw [← hgetD] at this
      exact this
    · intro j hj
      have hjc : j < conf.length := by simpa using hj
      have hget : (conf.map
          (fun c => decide (c < (conf.insertionSort (· ≤ ·)).getD k.toNat ⊥))).get ⟨j, hj⟩ =
          decide (conf.get ⟨j, hjc⟩ < (conf.insertionSort (· ≤ ·)).getD k.toNat ⊥) := by
        simp
      rw [hget, List.getD_eq_getElem conf ⊥ hjc]
      simp
  · rw [if_neg hcond] at h
    exact absurd h (by simp)

/-- Counterexample to C5 as stated: with tied probabilities (hence tied
noisy confidences) the strict-threshold mask marks zero positions
instead of `num_to_mask = 1`. -/
theorem c5_counterexample :
    mask_by_random_topk id 1 [confFin (1/2), confFin (1/2)] 0 [1/2, 1/2] =
      some [false, false] ∧ [false, false].count true ≠ (1 : ℤ).toNat := by
  exact ⟨by decide, by decide⟩

/-- Witness for C5 at distinct confidences. -/
theorem c5_witness :
    [true, false].count true = (1 : ℤ).toNat ∧
    ([true, false].get ⟨0, by decide⟩ = true ↔
      (topkConfidence id [confFin (1/4), confFin (3/4)] 0 [1/2, 1/2]).getD 0 ⊥ <
      ((topkConfidence id [confFin (1/4), confFin (3/4)] 0 [1/2, 1/2]).insertionSort
        (· ≤ ·)).getD (1 : ℤ).toNat ⊥) := by
  have h := c5_mask_by_random_topk_amended id 1 [confFin (1/4), confFin (3/4)] 0
    [1/2, 1/2] [true, false] (by decide) (by decide)
  exact ⟨h.1, h.2 0 (by decide)⟩

-- ## Helper lemmas for the filter safety claim

theorem cumsum_length (l : List ℚ) : (cumsum l).length = l.length := by
  induction l with
  | nil => rfl
  | cons a t ih => simp [cumsum, ih]

theorem sum_mem_cumsum : ∀ (l : List ℚ), l ≠ [] → l.sum ∈ cumsum l
  | [a], _ => by simp [cumsum]
  | a :: b :: t, _ => by
    have ih := sum_mem_cumsum (b :: t) (by simp)
    have hs : (a :: b :: t).sum = a + (b :: t).sum := List.sum_cons
    have hc : cumsum (a :: b :: t) = a :: (cumsum (b :: t)).map (a + ·) := rfl
    rw [hs, hc]
    exact List.mem_cons.mpr (Or.inr (List.mem_map.mpr ⟨(b :: t).sum, ih, rfl⟩))

theorem sum_map_div (l : List ℚ) (s : ℚ) : (l.map (fun x => x / s)).sum = l.sum / s := by
  induction l with
  | nil => simp
  | cons a t ih => simp [ih, add_div]

theorem softmaxQ_length (E : ℚ → ℚ) (l : List ℚ) : (softmaxQ E l).length = l.length := by
  simp [softmaxQ]

theorem softmaxQ_sum (E : ℚ → ℚ) (l : List ℚ) (hE : ∀ q, 0 < E q) (hne : l ≠ []) :
    (softmaxQ E l).sum = 1 := by
  unfold softmaxQ
  rw [sum_map_div]
  apply div_self
  refine ne_of_gt (List.sum_pos _ ?_ (by simpa))
  intro a ha
  obtain ⟨q, _, hq⟩ := List.mem_map.mp ha
  exact hq ▸ hE q

theorem not_mem_removed (idxs : List ℕ) (flags : List Bool) (hn : idxs.Nodup)
    (j0 : ℕ) (hj0 : j0 < idxs.length) (hjf : j0 < flags.length)
    (hf : flags[j0] = false) :
    idxs[j0] ∉ (idxs.zip flags).filterMap (fun pr => if pr.2 then some pr.1 else none) := by
  intro hmem
  obtain ⟨pr, hpr, heq⟩ := List.mem_filterMap.mp hmem
  by_cases h2 : pr.2
  · rw [if_pos h2] at heq
    obtain ⟨m, hm, hzip⟩ := List.mem_iff_getElem.mp hpr
    have hzl : (idxs.zip flags).length = min idxs.length flags.length :=
      List.length_zip idxs flags
    have hmi : m < idxs.length := by rw [hzl] at hm; omega
    have hmf : m < flags.length := by rw [hzl] at hm; omega
    have hzip2 : (idxs.zip flags)[m] = (idxs[m], flags[m]) := List.getElem_zip
    rw [hzip2] at hzip
    have h1 : idxs[m] = idxs[j0] := by
      have hfst := congrArg Prod.fst hzip
      simp only at hfst
      rw [hfst]
      exact Option.some_inj.mp heq
    have hm0 : m = j0 := hn.getElem_inj_iff.mp h1
    subst hm0
    have hsnd := congrArg Prod.snd hzip
    simp only at hsnd
    have hcontra : (true : Bool) = false := by rw [← h2, hsnd.symm.trans hf]
    exact Bool.noConfusion hcontra
  · rw [if_neg h2] at heq
    exact absurd heq (by simp)

theorem sorted_enum_map_fst_perm {α : Type} (r : (ℕ × α) → (ℕ × α) → Prop)
    [DecidableRel r] (l : List α) :
    ((l.enum.insertionSort r).map Prod.fst).Perm (List.range l.length) := by
  have h1 := (List.perm_insertionSort r l.enum).map Prod.fst
  rwa [List.enum_map_fst] at h1

theorem sorted_enum_fst_nodup {α : Type} (r : (ℕ × α) → (ℕ × α) → Prop)
    [DecidableRel r] (l : List α) :
    ((l.enum.insertionSort r).map Prod.fst).Nodup :=
  (sorted_enum_map_fst_perm r l).nodup_iff.mpr (List.nodup_range _)

theorem sorted_enum_length {α : Type} (r : (ℕ × α) → (ℕ × α) → Prop)
    [DecidableRel r] (l : List α) :
    (l.enum.insertionSort r).length = l.length := by
  rw [List.length_insertionSort, List.enum_length]

theorem mem_sorted_enum {α : Type} (r : (ℕ × α) → (ℕ × α) → Prop)
    [DecidableRel r] (l : List α) (pr : ℕ × α)
    (h : pr ∈ l.enum.insertionSort r) : ∃ (hlt : pr.1 < l.length), l[pr.1] = pr.2 := by
  have hmem : pr ∈ l.enum := (List.perm_insertionSort r l.enum).mem_iff.mp h
  obtain ⟨i, hi, he⟩ := List.mem_iff_getElem.mp hmem
  have hil : i < l.length := by simpa using hi
  rw [List.getElem_enum] at he
  cases pr with
  | mk a b =>
    have ha : i = a := congrArg Prod.fst he
    have hb : l[i] = b := congrArg Prod.snd he
    exact ⟨ha ▸ hil, by subst ha; exact hb⟩

theorem enum_map_out_getD {α β : Type} (l : List α) (f : ℕ × α → β) (d : β) (i : ℕ)
    (hi : i < l.length) :
    (l.enum.map f).getD i d = f (i, l[i]) := by
  rw [List.getD_eq_getElem _ d (by simpa using hi)]
  rw [List.getElem_map, List.getElem_enum]

theorem topKRow_keeps_finite (k : ℕ) (row : List Logit) (hk : 0 < k) (hkl : k ≤ row.length)
    (hfin : ∃ j : ℕ, row.getD j ⊥ ≠ ⊥) :
    ∃ out, topKRow k row = some out ∧ ∃ j : ℕ, out.getD j ⊥ ≠ ⊥ := by
  obtain ⟨j, hj⟩ := hfin
  have hjl : j < row.length := by
    by_contra hge
    exact hj (List.getD_eq_default row ⊥ (not_lt.mp hge))
  have hrowj : row.getD j ⊥ = row[j] := List.getD_eq_getElem row ⊥ hjl
  have hunf : topKRow k row = some (row.map (fun x =>
      if x < (row.insertionSort (· ≤ ·)).getD (row.length - k) ⊥ then ⊥ else x)) := by
    unfold topKRow
    rw [if_pos ⟨hk, hkl⟩]
  refine ⟨_, hunf, ?_⟩
  by_cases hbot : (row.insertionSort (· ≤ ·)).getD (row.length - k) ⊥ = ⊥
  · refine ⟨j, ?_⟩
    have hpt : (row.map (fun x =>
        if x < (row.insertionSort (· ≤ ·)).getD (row.length - k) ⊥ then ⊥ else x)).getD j ⊥ =
        (if row[j] < (row.insertionSort (· ≤ ·)).getD (row.length - k) ⊥ then ⊥ else row[j]) := by
      rw [List.getD_eq_getElem _ ⊥ (by simpa using hjl), List.getElem_map]
    rw [hpt, if_neg (by rw [hbot]; exact not_lt_bot)]
    rw [hrowj] at hj
    exact hj
  · have hbound : row.length - k < (row.insertionSort (· ≤ ·)).length := by
      rw [List.length_insertionSort]
      omega
    have hthr_get : (row.insertionSort (· ≤ ·)).getD (row.length - k) ⊥ =
        (row.insertionSort (· ≤ ·))[row.length - k] :=
      List.getD_eq_getElem _ ⊥ hbound
    have hthr_mem : (row.insertionSort (· ≤ ·)).getD (row.length - k) ⊥ ∈ row := by
      rw [hthr_get]
      exact (List.mem_insertionSort (· ≤ ·)).mp (List.getElem_mem hbound)
    obtain ⟨i, hi, hie⟩ := List.mem_iff_getElem.mp hthr_mem
    refine ⟨i, ?_⟩
    have hpt : (row.map (fun x =>
        if x < (row.insertionSort (· ≤ ·)).getD (row.length - k) ⊥ then ⊥ else x)).getD i ⊥ =
        (if row[i] < (row.insertionSort (· ≤ ·)).getD (row.length - k) ⊥ then ⊥ else row[i]) := by
      rw [List.getD_eq_getElem _ ⊥ (by simpa using hi), List.getElem_map]
    rw [hpt, hie, if_neg (lt_irrefl _)]
    exact hbot

theorem topPRow_keeps_finite (E : ℚ → ℚ) (p : ℚ) (row : List Logit)
    (hfin : ∃ j : ℕ, row.getD j ⊥ ≠ ⊥) :
    ∃ j : ℕ, (topPRow E p row).getD j ⊥ ≠ ⊥ := by
  obtain ⟨j0, hj0⟩ := hfin
  have hj0l : j0 < row.length := by
    by_contra hge
    exact hj0 (List.getD_eq_default row ⊥ (not_lt.mp hge))
  have hrow_j0 : row.getD j0 ⊥ = row[j0] := List.getD_eq_getElem row ⊥ hj0l
  have hpne : 0 < (row.enum.insertionSort sndGE).length := by
    rw [sorted_enum_length]
    omega
  obtain ⟨hlt0, hval0⟩ := mem_sorted_enum sndGE row
    ((row.enum.insertionSort sndGE).get ⟨0, hpne⟩)
    (List.get_mem (row.enum.insertionSort sndGE) 0 hpne)
  have hfin_mem : (j0, row[j0]) ∈ row.enum.insertionSort sndGE := by
    have hje : j0 < row.enum.length := by simpa using hj0l
    have hm := List.getElem_mem hje
    rw [List.getElem_enum] at hm
    exact (List.perm_insertionSort sndGE row.enum).mem_iff.mpr hm
  obtain ⟨m, hm, hme⟩ := List.mem_iff_getElem.mp hfin_mem
  have hsorted : (row.enum.insertionSort sndGE).Sorted sndGE :=
    List.sorted_insertionSort sndGE row.enum
  have hge : (row[j0] : Logit) ≤ ((row.enum.insertionSort sndGE).get ⟨0, hpne⟩).2 := by
    rcases Nat.eq_zero_or_pos m with hm0 | hmpos
    · subst hm0
      have heq : (row.enum.insertionSort sndGE).get ⟨0, hpne⟩ = (j0, row[j0]) := by
        rw [List.get_eq_getElem]
        exact hme
      rw [heq]
    · have hrel := hsorted.rel_get_of_lt
        (a := ⟨0, hpne⟩) (b := ⟨m, hm⟩) (by exact hmpos)
      have hgm : (row.enum.insertionSort sndGE).get ⟨m, hm⟩ = (j0, row[j0]) := by
        rw [List.get_eq_getElem]
        exact hme
      rw [hgm] at hrel
      exact hrel
  have hp0ne : ((row.enum.insertionSort sndGE).get ⟨0, hpne⟩).2 ≠ ⊥ := by
    intro hb
    rw [hb] at hge
    rw [hrow_j0] at hj0
    exact hj0 (le_bot_iff.mp hge)
  have hmaplen : ((row.enum.insertionSort sndGE).map Prod.fst).length =
      (row.enum.insertionSort sndGE).length := List.length_map _ _
  have h0m : 0 < ((row.enum.insertionSort sndGE).map Prod.fst).length := by
    rw [hmaplen]
    exact hpne
  have hflagslen : ((List.range (row.enum.insertionSort sndGE).length).map
      (fun j => decide (j ≠ 0 ∧ p <
        (cumsum (softmaxL E ((row.enum.insertionSort sndGE).map Prod.snd))).getD
          (j - 1) 0))).length = (row.enum.insertionSort sndGE).length := by
    simp
  have h0f : 0 < ((List.range (row.enum.insertionSort sndGE).length).map
      (fun j => decide (j ≠ 0 ∧ p <
        (cumsum (softmaxL E ((row.enum.insertionSort sndGE).map Prod.snd))).getD
          (j - 1) 0))).length := by
    rw [hflagslen]
    exact hpne
  have hflag0 : ((List.range (row.enum.insertionSort sndGE).length).map
      (fun j => decide (j ≠ 0 ∧ p <
        (cumsum (softmaxL E ((row.enum.insertionSort sndGE).map Prod.snd))).getD
          (j - 1) 0))).get ⟨0, h0f⟩ = false := by
    rw [List.get_eq_getElem, List.getElem_map, List.getElem_range]
    simp
  have hnot := not_mem_removed ((row.enum.insertionSort sndGE).map Prod.fst) _
    (sorted_enum_fst_nodup sndGE row) 0 h0m h0f hflag0
  have hidx0 : ((row.enum.insertionSort sndGE).map Prod.fst).get ⟨0, h0m⟩ =
      ((row.enum.insertionSort sndGE).get ⟨0, hpne⟩).1 := by
    rw [List.get_eq_getElem, List.getElem_map, List.get_eq_getElem]
  have hnotmem : ((row.enum.insertionSort sndGE).get ⟨0, hpne⟩).1 ∉
      topPRemovedIdx E p row := by
    rw [← hidx0]
    exact hnot
  refine ⟨((row.enum.insertionSort sndGE).get ⟨0, hpne⟩).1, ?_⟩
  have hout := enum_map_out_getD row
    (fun pr => if pr.1 ∈ topPRemovedIdx E p row then (⊥ : Logit) else pr.2) ⊥
    ((row.enum.insertionSort sndGE).get ⟨0, hpne⟩).1 hlt0
  have : topPRow E p row = row.enum.map
      (fun pr => if pr.1 ∈ topPRemovedIdx E p row then (⊥ : Logit) else pr.2) := rfl
  rw [this, hout]
  simp only [if_neg hnotmem]
  rw [hval0]
  exact hp0ne

theorem typicalSortedPairs_length (E lg : ℚ → ℚ) (row : List ℚ) :
    (typicalSortedPairs E lg row).length = row.length := by
  unfold typicalSortedPairs
  rw [List.length_insertionSort, List.enum_length]
  simp

theorem typical_filter_keeps_finite (E lg : ℚ → ℚ) (tm : ℚ) (tmt : ℕ) (row : List ℚ)
    (hrow : row ≠ []) (htm : tm ≤ 1) (hE : ∀ q, 0 < E q) :
    ∃ out, typical_filter E lg tm tmt row = some out ∧ ∃ j : ℕ, out.getD j ⊥ ≠ ⊥ := by
  have hrl : 0 < row.length := List.length_pos.mpr hrow
  have hcplen : (typicalSortedPairs E lg row).length = row.length :=
    typicalSortedPairs_length E lg row
  have hidxlen : ((typicalSortedPairs E lg row).map Prod.fst).length = row.length := by
    rw [List.length_map, hcplen]
  have hglen : (((typicalSortedPairs E lg row).map Prod.fst).map
      (fun i => row.getD i 0)).length = row.length := by
    rw [List.length_map, hidxlen]
  have hgne : ((typicalSortedPairs E lg row).map Prod.fst).map
      (fun i => row.getD i 0) ≠ [] := by
    intro h
    rw [← List.length_eq_zero] at h
    omega
  have hcumlen : (cumsum (softmaxQ E (((typicalSortedPairs E lg row).map Prod.fst).map
      (fun i => row.getD i 0)))).length = row.length := by
    rw [cumsum_length, softmaxQ_length, hglen]
  have hone : (1 : ℚ) ∈ cumsum (softmaxQ E (((typicalSortedPairs E lg row).map
      Prod.fst).map (fun i => row.getD i 0))) := by
    rw [← softmaxQ_sum E _ hE hgne]
    apply sum_mem_cumsum
    intro h
    rw [← List.length_eq_zero, softmaxQ_length, hglen] at h
    omega
  have hlast : typicalLastInd E lg tm row < row.length := by
    have heq : typicalLastInd E lg tm row =
        (cumsum (softmaxQ E (((typicalSortedPairs E lg row).map Prod.fst).map
          (fun i => row.getD i 0)))).countP (fun x => decide (x < tm)) := rfl
    have hne : (cumsum (softmaxQ E (((typicalSortedPairs E lg row).map Prod.fst).map
        (fun i => row.getD i 0)))).countP (fun x => decide (x < tm)) ≠
        (cumsum (softmaxQ E (((typicalSortedPairs E lg row).map Prod.fst).map
          (fun i => row.getD i 0)))).length := by
      intro he
      have hall := List.countP_eq_length.mp he 1 hone
      simp only [decide_eq_true_eq] at hall
      linarith
    have hle := List.countP_le_length (fun x : ℚ => decide (x < tm))
      (l := cumsum (softmaxQ E (((typicalSortedPairs E lg row).map Prod.fst).map
        (fun i => row.getD i 0))))
    rw [heq]
    omega
  have hcslen : ((typicalSortedPairs E lg row).map Prod.snd).length = row.length := by
    rw [List.length_map, hcplen]
  have hsucc : typical_filter E lg tm tmt row = some (row.enum.map
      (fun pr => if pr.1 ∈ typicalRemovedIdx E lg tm tmt row then (⊥ : Logit)
        else logitFin pr.2)) := by
    unfold typical_filter
    rw [if_pos (by rw [hcslen]; exact hlast)]
  refine ⟨_, hsucc, ?_⟩
  have hLi : typicalLastInd E lg tm row <
      ((typicalSortedPairs E lg row).map Prod.fst).length := by
    rw [hidxlen]
    exact hlast
  have hflagslen : ((List.range ((typicalSortedPairs E lg row).map Prod.snd).length).map
      (fun j => if 1 < tmt ∧ j < tmt then false
        else decide (((typicalSortedPairs E lg row).map Prod.snd).getD
          (typicalLastInd E lg tm row) 0 <
          ((typicalSortedPairs E lg row).map Prod.snd).getD j 0))).length =
      row.length := by
    rw [List.length_map, List.length_range, hcslen]
  have hLf : typicalLastInd E lg tm row <
      ((List.range ((typicalSortedPairs E lg row).map Prod.snd).length).map
      (fun j => if 1 < tmt ∧ j < tmt then false
        else decide (((typicalSortedPairs E lg row).map Prod.snd).getD
          (typicalLastInd E lg tm row) 0 <
          ((typicalSortedPairs E lg row).map Prod.snd).getD j 0))).length := by
    rw [hflagslen]
    exact hlast
  have hflagL : (((List.range ((typicalSortedPairs E lg row).map Prod.snd).length).map
      (fun j => if 1 < tmt ∧ j < tmt then false
        else decide (((typicalSortedPairs E lg row).map Prod.snd).getD
          (typicalLastInd E lg tm row) 0 <
          ((typicalSortedPairs E lg row).map Prod.snd).getD j 0))).get
            ⟨typicalLastInd E lg tm row, hLf⟩) = false := by
    rw [List.get_eq_getElem, List.getElem_map, List.getElem_range]
    by_cases h1 : 1 < tmt ∧ typicalLastInd E lg tm row < tmt
    · rw [if_pos h1]
    · rw [if_neg h1]
      simp
  have hnodup : ((typicalSortedPairs E lg row).map Prod.fst).Nodup := by
    unfold typicalSortedPairs
    exact sorted_enum_fst_nodup sndLE _
  have hnot := not_mem_removed ((typicalSortedPairs E lg row).map Prod.fst) _
    hnodup (typicalLastInd E lg tm row) hLi hLf hflagL
  have hi0row : ((typicalSortedPairs E lg row).map Prod.fst).get
      ⟨typicalLastInd E lg tm row, hLi⟩ < row.length := by
    have hmem : ((typicalSortedPairs E lg row).map Prod.fst).get
        ⟨typicalLastInd E lg tm row, hLi⟩ ∈ (typicalSortedPairs E lg row).map Prod.fst :=
      List.get_mem _ _ _
    have hperm : ((typicalSortedPairs E lg row).map Prod.fst).Perm
        (List.range row.length) := by
      unfold typicalSortedPairs
      have := sorted_enum_map_fst_perm sndLE
        ((row.map (fun q => q - lg (row.map E).sum)).map
          (fun x => |(-x) - -(List.zipWith (fun a b => a * b)
            (row.map (fun q => q - lg (row.map E).sum))
            ((row.map (fun q => q - lg (row.map E).sum)).map E)).sum|))
      simpa using this
    exact List.mem_range.mp (hperm.mem_iff.mp hmem)
  have hnotmem : ((typicalSortedPairs E lg row).map Prod.fst).get
      ⟨typicalLastInd E lg tm row, hLi⟩ ∉ typicalRemovedIdx E lg tm tmt row := hnot
  refine ⟨((typicalSortedPairs E lg row).map Prod.fst).get
    ⟨typicalLastInd E lg tm row, hLi⟩, ?_⟩
  rw [enum_map_out_getD row
    (fun pr => if pr.1 ∈ typicalRemovedIdx E lg tm tmt row then (⊥ : Logit)
      else logitFin pr.2) ⊥ _ hi0row]
  simp only [if_neg hnotmem]
  exact WithBot.coe_ne_bot

/-- C7: each filter keeps at least one finite-logit token per row.
Top-k (with a valid `1 ≤ k ≤ len`) keeps everything not below the k-th
largest value, in particular the threshold entry itself (or, when the
threshold is `-inf`, the whole row).  Top-p never removes the first
(largest) sorted entry, for any `p` and any `E`.  The typical filter
(with `typical_mass ≤ 1` and a positive exponential) always succeeds
and keeps the entry ranked at `last_ind`. -/
theorem c7_filters_never_empty :
    (∀ (k : ℕ) (row : List Logit), 0 < k → k ≤ row.length →
      (∃ j : ℕ, row.getD j ⊥ ≠ ⊥) →
      ∃ out, topKRow k row = some out ∧ ∃ j : ℕ, out.getD j ⊥ ≠ ⊥) ∧
    (∀ (E : ℚ → ℚ) (p : ℚ) (row : List Logit),
      (∃ j : ℕ, row.getD j ⊥ ≠ ⊥) →
      ∃ j : ℕ, (topPRow E p row).getD j ⊥ ≠ ⊥) ∧
    (∀ (E lg : ℚ → ℚ) (tm : ℚ) (tmt : ℕ) (row : List ℚ),
      row ≠ [] → tm ≤ 1 → (∀ q, 0 < E q) →
      ∃ out, typical_filter E lg tm tmt row = some out ∧ ∃ j : ℕ, out.getD j ⊥ ≠ ⊥) :=
  ⟨topKRow_keeps_finite, topPRow_keeps_finite, typical_filter_keeps_finite⟩

/-- Witness for C7 at concrete adversarial rows. -/
theorem c7_witness :
    (∃ out, topKRow 1 [logitFin 1, logitFin 2] = some out ∧
      ∃ j : ℕ, out.getD j ⊥ ≠ ⊥) ∧
    (∃ j : ℕ, (topPRow (fun _ => 1) (1/2) [logitFin 1, logitFin 2]).getD j ⊥ ≠ ⊥) ∧
    (∃ out, typical_filter (fun _ => 1) (fun _ => 0) (3/20) 1 [1, 2, 3] = some out ∧
      ∃ j : ℕ, out.getD j ⊥ ≠ ⊥) :=
  ⟨c7_filters_never_empty.1 1 _ (by decide) (by decide) ⟨0, by decide⟩,
   c7_filters_never_empty.2.1 _ _ _ ⟨0, by decide⟩,
   c7_filters_never_empty.2.2 _ _ _ _ _ (by decide) (by norm_num)
     (fun q => by norm_num)⟩

-- ## Generation state machine (transformer.py lines 150-299)

/-- `VampNet.GenerationState` (transformer.py lines 150-160), per batch
element.  `cfg_guidance` and `nb` are omitted: classifier-free guidance
only concatenates additional (fully masked) batch elements and blends
logits before sampling, and every modelled operation acts on batch
elements independently, so the per-element model covers guided runs
with the blended logits as the step's logits input. -/
structure GenerationState where
  zMasked : List (List ℕ)
  z : List (List ℕ)
  mask : List (List Bool)
  numMaskTokensAtStart : ℕ
  nInferCodebooks : ℕ
  step : ℕ
  samplingSteps : ℕ
  deriving DecidableEq

/-- `(z_masked == self.mask_token).sum().item()` over one batch
element. -/
def countMaskTokens (maskTok : ℕ) (g : List (List ℕ)) : ℕ :=
  (g.map (fun row => row.count maskTok)).sum

/-- `VampNet.initialize_state` (transformer.py lines 162-193), per batch
element and without the guidance batch doubling. -/
def initialize_state (V nCodebooks nCond : ℕ) (codes : List (List ℕ))
    (samplingSteps : ℕ) : GenerationState :=
  let maskTok := V * nCodebooks
  let mask := codes.map (fun row => row.map (fun v => decide (v = maskTok)))
  let zMasked := maskedFill codes mask maskTok
  { zMasked := zMasked
    z := codes
    mask := mask
    numMaskTokensAtStart := countMaskTokens maskTok zMasked
    nInferCodebooks := nCodebooks - nCond
    step := 0
    samplingSteps := samplingSteps }

/-- The `num_to_mask` computation of `generate_step` (transformer.py
lines 245-251): `floor(gamma(r) * num_mask_tokens_at_start)`, and on
every step but the last `max(1, min(masked_count - 1, ·))`. -/
def numToMaskVal (gam : ℚ → ℚ) (r : ℚ) (N : ℕ) (step S : ℕ) (maskedCount : ℕ) : ℤ :=
  let base : ℤ := Int.floor (gam r * N)
  if step ≠ S - 1 then max 1 (min ((maskedCount : ℤ) - 1) base) else base

/-- `codebook_flatten(z_masked[:, n_conditioning_codebooks:, :])`
(line 239). -/
def genFlatZ (nCond : ℕ) (st : GenerationState) : List ℕ :=
  codebook_flatten (st.zMasked.drop nCond)

/-- `mask = (z_masked == mask_token)` on the flattened grid (line 240). -/
def genMaskF (V nCodebooks nCond : ℕ) (st : GenerationState) : List Bool :=
  (genFlatZ nCond st).map (fun v => decide (v = V * nCodebooks))

/-- `sampled_z = torch.where(mask, sampled_z, z_masked)` (line 242). -/
def genSampled (V nCodebooks nCond : ℕ) (st : GenerationState)
    (sampledZ0 : List ℕ) : List ℕ :=
  zipWith3 (fun m s zc => if m then s else zc) (genMaskF V nCodebooks nCond st)
    sampledZ0 (genFlatZ nCond st)

/-- `selected_probs = torch.where(mask, selected_probs, inf)` (line 243). -/
def genSelProbs (V nCodebooks nCond : ℕ) (st : GenerationState)
    (selectedProbs0 : List ℚ) : List Conf :=
  List.zipWith (fun m p => if m then confFin p else (⊤ : Conf))
    (genMaskF V nCodebooks nCond st) selectedProbs0

/-- `VampNet.generate_step` (transformer.py lines 195-264) on one batch
element: forward logits arrive as an explicit input (the model, and the
guidance blend, are external collaborators), `us` are the multinomial
variates and `uniforms` the Gumbel variates of this step.  (With
`sampling_steps = 0` the source would raise a `ZeroDivisionError`; the
rational model yields `r = 0`, and no theorem below depends on that
case.) -/
def generate_step (V nCodebooks nCond : ℕ) (E lg gam : ℚ → ℚ) (st : GenerationState)
    (temperature mask_temperature : ℚ) (typical_filtering : Bool) (typical_mass : ℚ)
    (typical_min_tokens : ℕ) (top_p : Option ℚ) (sample_cutoff : ℚ)
    (logits : List (List ℚ)) (us uniforms : List ℚ) : Option GenerationState :=
  match sample_from_logits E lg logits
      (decide ((st.step : ℚ) / st.samplingSteps ≤ sample_cutoff)) temperature none top_p
      typical_filtering typical_mass typical_min_tokens us with
  | none => none
  | some (sampledZ0, selectedProbs0) =>
    match mask_by_random_topk lg
        (numToMaskVal gam (((st.step : ℚ) + 1) / st.samplingSteps)
          st.numMaskTokensAtStart st.step st.samplingSteps
          ((genMaskF V nCodebooks nCond st).count true))
        (genSelProbs V nCodebooks nCond st selectedProbs0)
        (mask_temperature * (1 - ((st.step : ℚ) + 1) / st.samplingSteps)) uniforms with
    | none => none
    | some maskNew =>
      some { st with
        zMasked := st.z.take nCond ++ codebook_unflatten
          (List.zipWith (fun m s => if m then V * nCodebooks else s) maskNew
            (genSampled V nCodebooks nCond st sampledZ0)) st.nInferCodebooks
        mask := codebook_unflatten maskNew st.nInferCodebooks
        step := st.step + 1 }

/-- The `for _ in range(sampling_steps)` loop of `VampNet.generate`
(lines 287-297), with one `(logits, us, uniforms)` triple per step. -/
def genLoop (V nCodebooks nCond : ℕ) (E lg gam : ℚ → ℚ)
    (temperature mask_temperature : ℚ) (tf : Bool) (tm : ℚ) (tmt : ℕ)
    (top_p : Option ℚ) (sc : ℚ) :
    List (List (List ℚ) × List ℚ × List ℚ) → GenerationState → Option GenerationState
  | [], st => some st
  | inp :: rest, st =>
    match generate_step V nCodebooks nCond E lg gam st temperature mask_temperature
        tf tm tmt top_p sc inp.1 inp.2.1 inp.2.2 with
    | none => none
    | some st2 => genLoop V nCodebooks nCond E lg gam temperature mask_temperature
        tf tm tmt top_p sc rest st2

/-- `VampNet.generate` (transformer.py lines 266-299) on one batch
element without guidance: initialize, loop, return the final
`z_masked`. -/
def generate (V nCodebooks nCond : ℕ) (E lg gam : ℚ → ℚ) (codes : List (List ℕ))
    (sampling_steps : ℕ) (temperature mask_temperature : ℚ) (tf : Bool) (tm : ℚ)
    (tmt : ℕ) (top_p : Option ℚ) (sc : ℚ)
    (inputs : List (List (List ℚ) × List ℚ × List ℚ)) : Option (List (List ℕ)) :=
  match genLoop V nCodebooks nCond E lg gam temperature mask_temperature tf tm tmt
      top_p sc inputs (initialize_state V nCodebooks nCond codes sampling_steps) with
  | none => none
  | some st => some st.zMasked

/-- A rectangular grid with `C` rows of length `T`. -/
def GridWF (C T : ℕ) (g : List (List ℕ)) : Prop :=
  g.length = C ∧ ∀ row ∈ g, row.length = T

/-- Shape wellformedness of a generation state, as `initialize_state`
establishes it. -/
def StateWF (nCodebooks nCond T : ℕ) (st : GenerationState) : Prop :=
  GridWF nCodebooks T st.zMasked ∧ GridWF nCodebooks T st.z ∧
  st.nInferCodebooks = nCodebooks - nCond ∧ nCond < nCodebooks ∧
  st.zMasked.take nCond = st.z.take nCond

/-- Shape wellformedness of one step's external inputs: the model
returns one logit row per flattened position, and the random variate
lists match. -/
def StepInWF (nInfer T : ℕ) (inp : List (List ℚ) × List ℚ × List ℚ) : Prop :=
  inp.1.length = T * nInfer ∧ inp.2.1.length = T * nInfer ∧ inp.2.2.length = T * nInfer

instance (C T : ℕ) (g : List (List ℕ)) : Decidable (GridWF C T g) := by
  unfold GridWF
  infer_instance

instance (nCodebooks nCond T : ℕ) (st : GenerationState) :
    Decidable (StateWF nCodebooks nCond T st) := by
  unfold StateWF GridWF
  infer_instance

instance (nInfer T : ℕ) (inp : List (List ℚ) × List ℚ × List ℚ) :
    Decidable (StepInWF nInfer T inp) := by
  unfold StepInWF
  infer_instance

theorem getD_nat_default (l : List ℕ) (j : ℕ) : l.getD j default = l.getD j 0 := rfl

theorem getD_drop {α : Type} (l : List α) (n i : ℕ) (d : α) :
    (l.drop n).getD i d = l.getD (n + i) d := by
  by_cases h : n + i < l.length
  · rw [List.getD_eq_getElem _ _ (by simp; omega), List.getD_eq_getElem _ _ h,
      List.getElem_drop]
  · rw [List.getD_eq_default _ _ (by simp; omega), List.getD_eq_default _ _ (by omega)]

theorem getD_take {α : Type} (l : List α) (n i : ℕ) (d : α) (h : i < n) :
    (l.take n).getD i d = l.getD i d := by
  by_cases hl : i < l.length
  · rw [List.getD_eq_getElem _ _ (by simp; omega), List.getD_eq_getElem _ _ hl,
      List.getElem_take]
  · rw [List.getD_eq_default _ _ (by simp; omega), List.getD_eq_default _ _ (by omega)]

theorem getD_append_left {α : Type} (a b : List α) (i : ℕ) (d : α) (h : i < a.length) :
    (a ++ b).getD i d = a.getD i d := by
  rw [List.getD_eq_getElem _ _ (by simp; omega), List.getD_eq_getElem _ _ h,
    List.getElem_append_left h]

theorem getD_append_right {α : Type} (a b : List α) (i : ℕ) (d : α)
    (h : a.length ≤ i) (h2 : i - a.length < b.length) :
    (a ++ b).getD i d = b.getD (i - a.length) d := by
  rw [List.getD_eq_getElem _ _ (by simp; omega), List.getD_eq_getElem _ _ h2]
  exact List.getElem_append_right h

theorem listMapM_length {α β : Type} (f : α → Option β) :
    ∀ (l : List α) (r : List β), listMapM f l = some r → r.length = l.length
  | [], r, h => by
    unfold listMapM at h
    have : r = [] := (Option.some_inj.mp h).symm
    simp [this]
  | a :: t, r, h => by
    unfold listMapM at h
    cases hfa : f a with
    | none => rw [hfa] at h; exact absurd h (by simp)
    | some b =>
      rw [hfa] at h
      cases hmt : listMapM f t with
      | none => rw [hmt] at h; exact absurd h (by simp)
      | some bs =>
        rw [hmt] at h
        have hr : r = b :: bs := (Option.some_inj.mp h).symm
        rw [hr]
        simp [listMapM_length f t bs hmt]

theorem applyTopP_length (E : ℚ → ℚ) (tp : Option ℚ) (rs : List (List Logit)) :
    (applyTopP E tp rs).length = rs.length := by
  unfold applyTopP
  cases tp with
  | none => rfl
  | some p =>
    dsimp only
    split <;> simp

theorem sample_from_logits_some_lengths (E lg : ℚ → ℚ) (logits : List (List ℚ))
    (sample : Bool) (temperature : ℚ) (tp : Option ℚ) (tf : Bool) (tm : ℚ) (tmt : ℕ)
    (us : List ℚ) (toks : List ℕ) (ps : List ℚ)
    (h : sample_from_logits E lg logits sample temperature none tp tf tm tmt us =
      some (toks, ps))
    (hus : us.length = logits.length) :
    toks.length = logits.length ∧ ps.length = logits.length := by
  unfold sample_from_logits at h
  revert h
  cases (if tf
      then (listMapM (typical_filter E lg tm tmt) logits).map (fun _ => ())
      else some ()) with
  | none => intro h; exact absurd h (by simp)
  | some u =>
    intro h
    simp only [appliedFilters] at h
    rw [Option.some_inj] at h
    set rows := applyTopP E tp (logits.map (fun r => r.map logitFin)) with hrows
    set probs := (if 0 < temperature
        then rows.map (fun r => softmaxL E (r.map (fun x => divLogit x temperature)))
        else rows.map (softmaxL E)) with hprobs
    set tks := (if sample = true then List.zipWith multinomialPick probs us
        else rows.map argmaxRow) with htks
    have hfl : rows.length = logits.length := by
      rw [hrows, applyTopP_length, List.length_map]
    have hPL : probs.length = logits.length := by
      rw [hprobs]
      split <;> simp [hfl]
    have hTL : tks.length = logits.length := by
      rw [htks]
      split
      · rw [List.length_zipWith, hPL, hus]
        simp
      · simp [hfl]
    have h1 : tks = toks := congrArg Prod.fst h
    have h2 : List.zipWith (fun p t => p.getD t 0) probs tks = ps := congrArg Prod.snd h
    constructor
    · rw [← h1]
      exact hTL
    · rw [← h2, List.length_zipWith, hPL, hTL]
      simp

theorem confLog_top (lg : ℚ → ℚ) : confLog lg ⊤ = ⊤ := rfl

theorem confAddFin_top (x : ℚ) : confAddFin ⊤ x = ⊤ := rfl

theorem topkConfidence_length (lg : ℚ → ℚ) (probs : List Conf) (temperature : ℚ)
    (uniforms : List ℚ) :
    (topkConfidence lg probs temperature uniforms).length =
      min probs.length uniforms.length := by
  unfold topkConfidence gumbel_noise_like
  rw [List.length_zipWith, List.length_map]

theorem mask_by_random_topk_length (lg : ℚ → ℚ) (k : ℤ) (probs : List Conf)
    (temperature : ℚ) (uniforms : List ℚ) (mask : List Bool)
    (h : mask_by_random_topk lg k probs temperature uniforms = some mask) :
    mask.length = (topkConfidence lg probs temperature uniforms).length := by
  unfold mask_by_random_topk at h
  by_cases hcond : 0 ≤ k ∧ k.toNat <
      ((topkConfidence lg probs temperature uniforms).insertionSort (· ≤ ·)).length
  · rw [if_pos hcond] at h
    have := (Option.some_inj.mp h).symm
    rw [this, List.length_map]
  · rw [if_neg hcond] at h
    exact absurd h (by simp)

/-- In `mask_by_random_topk`, a position whose probability is `+inf`
has `+inf` noisy confidence and is never selected for re-masking. -/
theorem mask_by_random_topk_top_false (lg : ℚ → ℚ) (k : ℤ) (probs : List Conf)
    (temperature : ℚ) (uniforms : List ℚ) (mask : List Bool) (j : ℕ)
    (h : mask_by_random_topk lg k probs temperature uniforms = some mask)
    (hp : probs.getD j ⊥ = (⊤ : Conf)) :
    mask.getD j false = false := by
  have hlen := mask_by_random_topk_length lg k probs temperature uniforms mask h
  unfold mask_by_random_topk at h
  by_cases hcond : 0 ≤ k ∧ k.toNat <
      ((topkConfidence lg probs temperature uniforms).insertionSort (· ≤ ·)).length
  · rw [if_pos hcond] at h
    have hmask := (Option.some_inj.mp h).symm
    by_cases hj : j < (topkConfidence lg probs temperature uniforms).length
    · have hjp : j < probs.length := by
        rw [topkConfidence_length] at hj
        omega
      have hju : j < (gumbel_noise_like lg uniforms).length := by
        rw [topkConfidence_length] at hj
        unfold gumbel_noise_like
        rw [List.length_map]
        omega
      have hconfj : (topkConfidence lg probs temperature uniforms).getD j ⊥ =
          (⊤ : Conf) := by
        unfold topkConfidence
        rw [zipWith_getD (fun p n => confAddFin (confLog lg p) (temperature * n)) ⊥ 0 ⊥
          probs (gumbel_noise_like lg uniforms) j hjp hju]
        rw [hp, confLog_top, confAddFin_top]
      rw [hmask]
      rw [List.getD_eq_getElem _ false (by simpa using hj), List.getElem_map,
        ← List.getD_eq_getElem (topkConfidence lg probs temperature uniforms) ⊥ hj,
        hconfj]
      exact decide_eq_false not_top_lt
    · rw [List.getD_eq_default]
      rw [hlen]
      omega
  · rw [if_neg hcond] at h
    exact absurd h (by simp)

theorem generate_step_some_inv (V nCodebooks nCond : ℕ) (E lg gam : ℚ → ℚ)
    (st : GenerationState) (temperature mask_temperature : ℚ) (tf : Bool) (tm : ℚ)
    (tmt : ℕ) (tp : Option ℚ) (sc : ℚ) (logits : List (List ℚ)) (us uniforms : List ℚ)
    (st2 : GenerationState)
    (h : generate_step V nCodebooks nCond E lg gam st temperature mask_temperature
      tf tm tmt tp sc logits us uniforms = some st2) :
    ∃ (sampledZ0 : List ℕ) (selectedProbs0 : List ℚ) (maskNew : List Bool),
      sample_from_logits E lg logits
        (decide ((st.step : ℚ) / st.samplingSteps ≤ sc)) temperature none tp tf tm tmt
        us = some (sampledZ0, selectedProbs0) ∧
      mask_by_random_topk lg
        (numToMaskVal gam (((st.step : ℚ) + 1) / st.samplingSteps)
          st.numMaskTokensAtStart st.step st.samplingSteps
          ((genMaskF V nCodebooks nCond st).count true))
        (genSelProbs V nCodebooks nCond st selectedProbs0)
        (mask_temperature * (1 - ((st.step : ℚ) + 1) / st.samplingSteps)) uniforms =
        some maskNew ∧
      st2 = { st with
        zMasked := st.z.take nCond ++ codebook_unflatten
          (List.zipWith (fun m s => if m then V * nCodebooks else s) maskNew
            (genSampled V nCodebooks nCond st sampledZ0)) st.nInferCodebooks
        mask := codebook_unflatten maskNew st.nInferCodebooks
        step := st.step + 1 } := by
  unfold generate_step at h
  rcases hsf : sample_from_logits E lg logits
      (decide ((st.step : ℚ) / st.samplingSteps ≤ sc)) temperature none tp tf tm tmt
      us with _ | ⟨sampledZ0, selectedProbs0⟩
  · rw [hsf] at h
    exact absurd h (by simp)
  · simp only [hsf] at h
    rcases hmk : mask_by_random_topk lg
        (numToMaskVal gam (((st.step : ℚ) + 1) / st.samplingSteps)
          st.numMaskTokensAtStart st.step st.samplingSteps
          ((genMaskF V nCodebooks nCond st).count true))
        (genSelProbs V nCodebooks nCond st selectedProbs0)
        (mask_temperature * (1 - ((st.step : ℚ) + 1) / st.samplingSteps)) uniforms
      with _ | maskNew
    · rw [hmk] at h
      exact absurd h (by simp)
    · simp only [hmk] at h
      exact ⟨sampledZ0, selectedProbs0, maskNew, rfl, hmk, (Option.some_inj.mp h).symm⟩

theorem drop_headD_length (T nCodebooks nCond : ℕ) (g : List (List ℕ))
    (hwf : GridWF nCodebooks T g) (hlt : nCond < nCodebooks) :
    ((g.drop nCond).headD []).length = T := by
  have h0 : 0 < (g.drop nCond).length := by
    rw [List.length_drop, hwf.1]
    omega
  obtain ⟨a, rest, he⟩ : ∃ a rest, g.drop nCond = a :: rest := by
    cases hx : g.drop nCond with
    | nil => rw [hx] at h0; simp at h0
    | cons a rest => exact ⟨a, rest, rfl⟩
  rw [he]
  exact hwf.2 a (List.mem_of_mem_drop (he ▸ List.mem_cons_self a rest))

theorem genFlatZ_length (nCodebooks nCond T : ℕ) (st : GenerationState)
    (hwf : StateWF nCodebooks nCond T st) :
    (genFlatZ nCond st).length = T * (nCodebooks - nCond) := by
  unfold genFlatZ
  rw [codebook_flatten_length]
  rw [drop_headD_length T nCodebooks nCond st.zMasked hwf.1 hwf.2.2.2.1]
  rw [List.length_drop, hwf.1.1]

theorem zipWith3_getD {α β γ δ : Type} (f : α → β → γ → δ) (da : α) (db : β) (dc : γ)
    (d : δ) :
    ∀ (xs : List α) (ys : List β) (zs : List γ) (i : ℕ),
      i < xs.length → i < ys.length → i < zs.length →
      (zipWith3 f xs ys zs).getD i d = f (xs.getD i da) (ys.getD i db) (zs.getD i dc)
  | x :: xs, y :: ys, z :: zs, 0, _, _, _ => rfl
  | x :: xs, y :: ys, z :: zs, i + 1, hx, hy, hz => by
    have hrec := zipWith3_getD f da db dc d xs ys zs i (by simpa using hx)
      (by simpa using hy) (by simpa using hz)
    simpa [zipWith3] using hrec

theorem generate_step_keeps_unmasked (V nCodebooks nCond T : ℕ) (E lg gam : ℚ → ℚ)
    (st : GenerationState) (temperature mask_temperature : ℚ) (tf : Bool) (tm : ℚ)
    (tmt : ℕ) (tp : Option ℚ) (sc : ℚ) (logits : List (List ℚ)) (us uniforms : List ℚ)
    (st2 : GenerationState)
    (h : generate_step V nCodebooks nCond E lg gam st temperature mask_temperature
      tf tm tmt tp sc logits us uniforms = some st2)
    (hwf : StateWF nCodebooks nCond T st)
    (hin : StepInWF (nCodebooks - nCond) T (logits, us, uniforms))
    (c t : ℕ) (hc : c < nCodebooks) (ht : t < T)
    (hum : (st.zMasked.getD c []).getD t 0 ≠ V * nCodebooks) :
    (st2.zMasked.getD c []).getD t 0 = (st.zMasked.getD c []).getD t 0 := by
  obtain ⟨s0, p0, mN, hsf, hmk, hst2⟩ := generate_step_some_inv V nCodebooks nCond E lg
    gam st temperature mask_temperature tf tm tmt tp sc logits us uniforms st2 h
  have hcondlt : nCond < nCodebooks := hwf.2.2.2.1
  have hnIpos : 0 < nCodebooks - nCond := by omega
  have hflat : (genFlatZ nCond st).length = T * (nCodebooks - nCond) :=
    genFlatZ_length nCodebooks nCond T st hwf
  have hmaskF : (genMaskF V nCodebooks nCond st).length = T * (nCodebooks - nCond) := by
    unfold genMaskF
    rw [List.length_map, hflat]
  have hs0 := sample_from_logits_some_lengths E lg logits _ temperature tp tf tm tmt
    us s0 p0 hsf (by rw [hin.1, hin.2.1])
  have hs0l : s0.length = T * (nCodebooks - nCond) := by rw [hs0.1, hin.1]
  have hp0l : p0.length = T * (nCodebooks - nCond) := by rw [hs0.2, hin.1]
  have hselP : (genSelProbs V nCodebooks nCond st p0).length =
      T * (nCodebooks - nCond) := by
    unfold genSelProbs
    rw [List.length_zipWith, hmaskF, hp0l]
    simp
  have hmN : mN.length = T * (nCodebooks - nCond) := by
    rw [mask_by_random_topk_length _ _ _ _ _ _ hmk, topkConfidence_length, hselP,
      hin.2.2]
    simp
  have hsampled : (genSampled V nCodebooks nCond st s0).length =
      T * (nCodebooks - nCond) := by
    unfold genSampled
    rw [zipWith3_length, hmaskF, hs0l, hflat]
    simp
  have hzNew : (List.zipWith (fun m s => if m then V * nCodebooks else s) mN
      (genSampled V nCodebooks nCond st s0)).length = T * (nCodebooks - nCond) := by
    rw [List.length_zipWith, hmN, hsampled]
    simp
  have htlen : (st.z.take nCond).length = nCond := by
    rw [List.length_take, hwf.2.1.1]
    omega
  rcases lt_or_ge c nCond with hclt | hcge
  · -- conditioning rows: taken from z, equal to the zMasked rows by the
    -- take-prefix invariant
    rw [hst2]
    simp only []
    rw [getD_append_left _ _ c [] (by rw [htlen]; exact hclt)]
    rw [getD_take _ _ _ _ hclt]
    have hpref := congrArg (fun l => List.getD l c ([] : List ℕ)) hwf.2.2.2.2
    simp only at hpref
    rw [getD_take _ _ _ _ hclt, getD_take _ _ _ _ hclt] at hpref
    rw [← hpref]
  · -- inferred rows
    rw [hst2]
    simp only []
    rw [hwf.2.2.1]
    rw [getD_append_right _ _ c [] (by omega)
      (by rw [codebook_unflatten_length]; omega)]
    rw [htlen]
    have hcb : c - nCond < nCodebooks - nCond := by omega
    have htb : t < (List.zipWith (fun m s => if m then V * nCodebooks else s) mN
        (genSampled V nCodebooks nCond st s0)).length / (nCodebooks - nCond) := by
      rw [hzNew, Nat.mul_div_cancel _ hnIpos]
      exact ht
    have hunf := codebook_unflatten_getD
      (List.zipWith (fun m s => if m then V * nCodebooks else s) mN
        (genSampled V nCodebooks nCond st s0)) (nCodebooks - nCond) (c - nCond) t hcb htb
    simp only [getD_nat_default] at hunf
    rw [hunf]
    set j := t * (nCodebooks - nCond) + (c - nCond) with hj
    have hjlt : j < T * (nCodebooks - nCond) := by
      have h1 : j < (t + 1) * (nCodebooks - nCond) := by
        rw [hj, Nat.succ_mul]
        omega
      have h2 : (t + 1) * (nCodebooks - nCond) ≤ T * (nCodebooks - nCond) :=
        Nat.mul_le_mul_right _ (by omega)
      omega
    have hdl : (st.zMasked.drop nCond).length = nCodebooks - nCond := by
      rw [List.length_drop, hwf.1.1]
    -- the flat cell at j is the original grid cell (c, t)
    have hcell : (genFlatZ nCond st).getD j 0 = (st.zMasked.getD c []).getD t 0 := by
      unfold genFlatZ
      have hfg := codebook_flatten_getD (st.zMasked.drop nCond) (c - nCond) t
        (by rw [hdl]; exact hcb)
        (by rw [drop_headD_length T nCodebooks nCond st.zMasked hwf.1 hcondlt]; exact ht)
      rw [hdl] at hfg
      simp only [getD_nat_default] at hfg
      rw [hj, hfg, getD_drop]
      rw [show nCond + (c - nCond) = c by omega]
    -- the flat mask at j is false
    have hjf : j < (genFlatZ nCond st).length := by rw [hflat]; exact hjlt
    have hmaskFj : (genMaskF V nCodebooks nCond st).getD j false = false := by
      unfold genMaskF
      rw [List.getD_eq_getElem _ false (by rw [List.length_map]; exact hjf),
        List.getElem_map]
      have hgf : (genFlatZ nCond st)[j] = (genFlatZ nCond st).getD j 0 :=
        (List.getD_eq_getElem _ 0 hjf).symm
      rw [hgf, hcell]
      exact decide_eq_false hum
    -- the selected probability at j is +inf
    have hselPj : (genSelProbs V nCodebooks nCond st p0).getD j ⊥ = (⊤ : Conf) := by
      unfold genSelProbs
      rw [List.getD_eq_getElem _ ⊥ (by
        rw [List.length_zipWith, hmaskF, hp0l]
        simp
        exact hjlt), List.getElem_zipWith]
      have hjm : j < (genMaskF V nCodebooks nCond st).length := by
        rw [hmaskF]
        exact hjlt
      rw [← List.getD_eq_getElem (genMaskF V nCodebooks nCond st) false hjm, hmaskFj]
      simp
    -- so the new mask never selects j
    have hmNj : mN.getD j false = false :=
      mask_by_random_topk_top_false lg _ _ _ uniforms mN j hmk hselPj
    -- and the new flat grid keeps the original token at j
    rw [zipWith_getD (fun m s => if m then V * nCodebooks else s) false 0 0 mN
      (genSampled V nCodebooks nCond st s0) j (by rw [hmN]; exact hjlt)
      (by rw [hsampled]; exact hjlt)]
    rw [hmNj]
    simp only [Bool.false_eq_true, if_false]
    unfold genSampled
    rw [zipWith3_getD (fun m s zc => if m then s else zc) false 0 0 0
      (genMaskF V nCodebooks nCond st) s0 (genFlatZ nCond st) j
      (by rw [hmaskF]; exact hjlt) (by rw [hs0l]; exact hjlt) hjf]
    rw [hmaskFj]
    simp only [Bool.false_eq_true, if_false]
    exact hcell

theorem generate_step_preserves_wf (V nCodebooks nCond T : ℕ) (E lg gam : ℚ → ℚ)
    (st : GenerationState) (temperature mask_temperature : ℚ) (tf : Bool) (tm : ℚ)
    (tmt : ℕ) (tp : Option ℚ) (sc : ℚ) (logits : List (List ℚ)) (us uniforms : List ℚ)
    (st2 : GenerationState)
    (h : generate_step V nCodebooks nCond E lg gam st temperature mask_temperature
      tf tm tmt tp sc logits us uniforms = some st2)
    (hwf : StateWF nCodebooks nCond T st)
    (hin : StepInWF (nCodebooks - nCond) T (logits, us, uniforms)) :
    StateWF nCodebooks nCond T st2 ∧ st2.z = st.z := by
  obtain ⟨s0, p0, mN, hsf, hmk, hst2⟩ := generate_step_some_inv V nCodebooks nCond E lg
    gam st temperature mask_temperature tf tm tmt tp sc logits us uniforms st2 h
  have hcondlt : nCond < nCodebooks := hwf.2.2.2.1
  have hnIpos : 0 < nCodebooks - nCond := by omega
  have hflat : (genFlatZ nCond st).length = T * (nCodebooks - nCond) :=
    genFlatZ_length nCodebooks nCond T st hwf
  have hmaskF : (genMaskF V nCodebooks nCond st).length = T * (nCodebooks - nCond) := by
    unfold genMaskF
    rw [List.length_map, hflat]
  have hs0 := sample_from_logits_some_lengths E lg logits _ temperature tp tf tm tmt
    us s0 p0 hsf (by rw [hin.1, hin.2.1])
  have hs0l : s0.length = T * (nCodebooks - nCond) := by rw [hs0.1, hin.1]
  have hp0l : p0.length = T * (nCodebooks - nCond) := by rw [hs0.2, hin.1]
  have hselP : (genSelProbs V nCodebooks nCond st p0).length =
      T * (nCodebooks - nCond) := by
    unfold genSelProbs
    rw [List.length_zipWith, hmaskF, hp0l]
    simp
  have hmN : mN.length = T * (nCodebooks - nCond) := by
    rw [mask_by_random_topk_length _ _ _ _ _ _ hmk, topkConfidence_length, hselP,
      hin.2.2]
    simp
  have hsampled : (genSampled V nCodebooks nCond st s0).length =
      T * (nCodebooks - nCond) := by
    unfold genSampled
    rw [zipWith3_length, hmaskF, hs0l, hflat]
    simp
  have hzNew : (List.zipWith (fun m s => if m then V * nCodebooks else s) mN
      (genSampled V nCodebooks nCond st s0)).length = T * (nCodebooks - nCond) := by
    rw [List.length_zipWith, hmN, hsampled]
    simp
  have htlen : (st.z.take nCond).length = nCond := by
    rw [List.length_take, hwf.2.1.1]
    omega
  have hzeq : st2.z = st.z := by rw [hst2]
  refine ⟨⟨⟨?_, ?_⟩, ?_, ?_, hcondlt, ?_⟩, hzeq⟩
  · rw [hst2]
    simp only []
    rw [List.length_append, htlen, codebook_unflatten_length, hwf.2.2.1]
    omega
  · rw [hst2]
    simp only []
    intro row hrow
    rcases List.mem_append.mp hrow with hmem | hmem
    · exact hwf.2.1.2 row (List.mem_of_mem_take hmem)
    · rw [hwf.2.2.1] at hmem
      obtain ⟨ci, hci, hrow2⟩ := List.mem_iff_getElem.mp hmem
      rw [codebook_unflatten_length] at hci
      have := codebook_unflatten_row_length
        (List.zipWith (fun m s => if m then V * nCodebooks else s) mN
          (genSampled V nCodebooks nCond st s0)) (nCodebooks - nCond) ci hci
      rw [List.getD_eq_getElem _ [] (by rw [codebook_unflatten_length]; exact hci)]
        at this
      rw [hrow2] at this
      rw [this, hzNew, Nat.mul_div_cancel _ hnIpos]
  · rw [hst2]
    exact hwf.2.1
  · rw [hst2]
    simp only []
    exact hwf.2.2.1
  · rw [hst2]
    have hgoal : (st.z.take nCond ++ codebook_unflatten
        (List.zipWith (fun m s => if m then V * nCodebooks else s) mN
          (genSampled V nCodebooks nCond st s0)) st.nInferCodebooks).take nCond =
        st.z.take nCond := by
      rw [List.take_append_of_le_length (by rw [htlen]), List.take_take]
      simp
    exact hgoal

theorem genLoop_keeps_unmasked (V nCodebooks nCond T : ℕ) (E lg gam : ℚ → ℚ)
    (temperature mask_temperature : ℚ) (tf : Bool) (tm : ℚ) (tmt : ℕ)
    (tp : Option ℚ) (sc : ℚ) :
    ∀ (inputs : List (List (List ℚ) × List ℚ × List ℚ)) (st st2 : GenerationState),
      genLoop V nCodebooks nCond E lg gam temperature mask_temperature tf tm tmt tp sc
        inputs st = some st2 →
      StateWF nCodebooks nCond T st →
      (∀ inp ∈ inputs, StepInWF (nCodebooks - nCond) T inp) →
      ∀ c t : ℕ, c < nCodebooks → t < T →
        (st.zMasked.getD c []).getD t 0 ≠ V * nCodebooks →
        (st2.zMasked.getD c []).getD t 0 = (st.zMasked.getD c []).getD t 0
  | [], st, st2, h, hwf, hins => by
    intro c t _ _ _
    have hss : st2 = st := by
      unfold genLoop at h
      exact (Option.some_inj.mp h).symm
    rw [hss]
  | inp :: rest, st, st2, h, hwf, hins => by
    intro c t hc ht hum
    unfold genLoop at h
    revert h
    cases hstep : generate_step V nCodebooks nCond E lg gam st temperature
        mask_temperature tf tm tmt tp sc inp.1 inp.2.1 inp.2.2 with
    | none => intro h; exact absurd h (by simp)
    | some stM =>
      intro h
      have hinp : StepInWF (nCodebooks - nCond) T (inp.1, inp.2.1, inp.2.2) :=
        hins inp (List.mem_cons_self _ _)
      have hkeep := generate_step_keeps_unmasked V nCodebooks nCond T E lg gam st
        temperature mask_temperature tf tm tmt tp sc inp.1 inp.2.1 inp.2.2 stM hstep
        hwf hinp c t hc ht hum
      have hwfM := generate_step_preserves_wf V nCodebooks nCond T E lg gam st
        temperature mask_temperature tf tm tmt tp sc inp.1 inp.2.1 inp.2.2 stM hstep
        hwf hinp
      have humM : (stM.zMasked.getD c []).getD t 0 ≠ V * nCodebooks := by
        rw [hkeep]
        exact hum
      have hrec := genLoop_keeps_unmasked V nCodebooks nCond T E lg gam temperature
        mask_temperature tf tm tmt tp sc rest stM st2 h hwfM.1
        (fun i hi => hins i (List.mem_cons_of_mem _ hi)) c t hc ht humM
      rw [hrec, hkeep]

/-- C3: resolved-token stability.  First conjunct: the re-masking
selection never marks a position whose selection probability was forced
to `+inf` (its noisy confidence is `+inf`, which is never strictly
below the cut-off).  Second conjunct: through any run of the
`generate_step` loop, a grid position that is unmasked (not the mask
sentinel) keeps its token unchanged at every later step — sampling
never overwrites already-resolved tokens. -/
theorem c3_resolved_token_stability :
    (∀ (lg : ℚ → ℚ) (k : ℤ) (probs : List Conf) (temperature : ℚ) (uniforms : List ℚ)
      (mask : List Bool) (j : ℕ),
      mask_by_random_topk lg k probs temperature uniforms = some mask →
      probs.getD j ⊥ = (⊤ : Conf) →
      mask.getD j false = false) ∧
    (∀ (V nCodebooks nCond T : ℕ) (E lg gam : ℚ → ℚ)
      (temperature mask_temperature : ℚ) (tf : Bool) (tm : ℚ) (tmt : ℕ)
      (tp : Option ℚ) (sc : ℚ) (inputs : List (List (List ℚ) × List ℚ × List ℚ))
      (st st2 : GenerationState),
      genLoop V nCodebooks nCond E lg gam temperature mask_temperature tf tm tmt tp sc
        inputs st = some st2 →
      StateWF nCodebooks nCond T st →
      (∀ inp ∈ inputs, StepInWF (nCodebooks - nCond) T inp) →
      ∀ c t : ℕ, c < nCodebooks → t < T →
        (st.zMasked.getD c []).getD t 0 ≠ V * nCodebooks →
        (st2.zMasked.getD c []).getD t 0 = (st.zMasked.getD c []).getD t 0) :=
  ⟨mask_by_random_topk_top_false,
   fun V nCodebooks nCond T E lg gam temperature mask_temperature tf tm tmt tp sc
      inputs st st2 h hwf hins =>
    genLoop_keeps_unmasked V nCodebooks nCond T E lg gam temperature mask_temperature
      tf tm tmt tp sc inputs st st2 h hwf hins⟩

/-- Witness for C3 at a concrete one-step run: grid `[[2, 1]]`
(`mask_token = 2`), position `(0, 1)` unmasked with token `1`, kept
after the step. -/
theorem c3_witness :
    genLoop 2 1 0 (fun _ => 1) (fun _ => 0) (fun _ => 0) 1 1 false 0 1 none 1
      [([[0, 0], [0, 0]], [0, 0], [1/2, 1/2])]
      (initialize_state 2 1 0 [[2, 1]] 1) =
      some (⟨[[0, 1]], [[2, 1]], [[false, false]], 1, 1, 1, 1⟩ : GenerationState) ∧
    (([[0, 1]] : List (List ℕ)).getD 0 []).getD 1 0 =
      (((initialize_state 2 1 0 [[2, 1]] 1).zMasked.getD 0 []).getD 1 0) ∧
    [false].getD 0 false = false := by
  have h1 : genLoop 2 1 0 (fun _ => 1) (fun _ => 0) (fun _ => 0) 1 1 false 0 1 none 1
      [([[0, 0], [0, 0]], [0, 0], [1/2, 1/2])]
      (initialize_state 2 1 0 [[2, 1]] 1) =
      some (⟨[[0, 1]], [[2, 1]], [[false, false]], 1, 1, 1, 1⟩ : GenerationState) := by
    decide
  refine ⟨h1, ?_, ?_⟩
  · have h2 := c3_resolved_token_stability.2 2 1 0 2 (fun _ => 1) (fun _ => 0)
      (fun _ => 0) 1 1 false 0 1 none 1
      [([[0, 0], [0, 0]], [0, 0], [1/2, 1/2])]
      (initialize_state 2 1 0 [[2, 1]] 1)
      (⟨[[0, 1]], [[2, 1]], [[false, false]], 1, 1, 1, 1⟩ : GenerationState)
      h1 (by decide) (by decide) 0 1 (by decide) (by decide) (by decide)
    exact h2
  · exact c3_resolved_token_stability.1 id 0 [(⊤ : Conf)] 0 [1/2] [false] 0
      (by decide) (by decide)

/-- C4 (amended): `num_to_mask` is `floor(gamma(r) * N)`, clamped on
every non-final step through `max(1, min(masked_count - 1, ·))`.  When
the row still has at least two masked tokens this lands in
`[1, masked_count - 1]`, so re-masking (which marks at most
`num_to_mask` positions, second conjunct) leaves at least one token
resolved and never re-masks the whole row; when the row has at most one
masked token the clamp yields `1`, which exceeds `masked_count - 1`
(see the counterexample). -/
theorem c4_num_to_mask_amended :
    (∀ (gam : ℚ → ℚ) (r : ℚ) (N step S maskedCount : ℕ),
      (step ≠ S - 1 →
        numToMaskVal gam r N step S maskedCount =
          max 1 (min ((maskedCount : ℤ) - 1) (Int.floor (gam r * N))) ∧
        (2 ≤ maskedCount →
          1 ≤ numToMaskVal gam r N step S maskedCount ∧
          numToMaskVal gam r N step S maskedCount ≤ (maskedCount : ℤ) - 1)) ∧
      (step = S - 1 →
        numToMaskVal gam r N step S maskedCount = Int.floor (gam r * N))) ∧
    (∀ (lg : ℚ → ℚ) (k : ℤ) (probs : List Conf) (temperature : ℚ)
      (uniforms : List ℚ) (mask : List Bool),
      mask_by_random_topk lg k probs temperature uniforms = some mask →
      mask.count true ≤ k.toNat) := by
  constructor
  · intro gam r N step S m
    constructor
    · intro hs
      constructor
      · unfold numToMaskVal
        rw [if_pos hs]
      · intro hm
        unfold numToMaskVal
        rw [if_pos hs]
        refine ⟨le_max_left _ _, max_le ?_ (min_le_left _ _)⟩
        have : (2 : ℤ) ≤ (m : ℤ) := by exact_mod_cast hm
        omega
    · intro hs
      unfold numToMaskVal
      rw [if_neg (fun hne => hne hs)]
  · intro lg k probs temperature uniforms mask h
    unfold mask_by_random_topk at h
    by_cases hcond : 0 ≤ k ∧ k.toNat <
        ((topkConfidence lg probs temperature uniforms).insertionSort (· ≤ ·)).length
    · rw [if_pos hcond] at h
      have hmask := (Option.some_inj.mp h).symm
      subst hmask
      rw [count_true_map]
      have hperm : ((topkConfidence lg probs temperature uniforms).insertionSort
          (· ≤ ·)).Perm (topkConfidence lg probs temperature uniforms) :=
        List.perm_insertionSort _ _
      rw [← hperm.countP_eq]
      have hgetD : ((topkConfidence lg probs temperature uniforms).insertionSort
          (· ≤ ·)).getD k.toNat ⊥ =
          ((topkConfidence lg probs temperature uniforms).insertionSort
            (· ≤ ·)).get ⟨k.toNat, hcond.2⟩ := by
        rw [List.getD_eq_getElem _ ⊥ hcond.2]
        simp
      rw [hgetD]
      exact sorted_countP_lt_le _ _ hcond.2 (List.sorted_insertionSort _ _)
    · rw [if_neg hcond] at h
      exact absurd h (by simp)

/-- Counterexample to C4 as stated: on a non-final step with a single
masked token left, the clamp produces `1`, which is not in the claimed
range `[1, masked_count - 1] = [1, 0]` — that token is re-masked and no
token resolves on the step. -/
theorem c4_counterexample :
    numToMaskVal (fun _ => 1/2) (1/2) 1 0 2 1 = 1 ∧
    ¬ (numToMaskVal (fun _ => 1/2) (1/2) 1 0 2 1 ≤ (1 : ℤ) - 1) := by
  constructor <;> decide

/-- Witness for C4 at a non-final step with three masked tokens and at
the final step, plus the at-most-`k` re-masking bound. -/
theorem c4_witness :
    (numToMaskVal (fun _ => 1/2) (1/2) 4 0 2 3 =
      max 1 (min ((3 : ℤ) - 1) (Int.floor ((1/2 : ℚ) * (4 : ℕ)))) ∧
     1 ≤ numToMaskVal (fun _ => 1/2) (1/2) 4 0 2 3 ∧
     numToMaskVal (fun _ => 1/2) (1/2) 4 0 2 3 ≤ (3 : ℤ) - 1) ∧
    numToMaskVal (fun _ => 1/2) (1) 4 1 2 3 = Int.floor ((1/2 : ℚ) * (4 : ℕ)) ∧
    [false, false].count true ≤ (1 : ℤ).toNat := by
  refine ⟨?_, ?_, ?_⟩
  · have h := (c4_num_to_mask_amended.1 (fun _ => 1/2) (1/2) 4 0 2 3).1 (by decide)
    exact ⟨h.1, (h.2 (by decide)).1, (h.2 (by decide)).2⟩
  · exact (c4_num_to_mask_amended.1 (fun _ => 1/2) 1 4 1 2 3).2 (by decide)
  · exact c4_num_to_mask_amended.2 id 1 [confFin 1, confFin 1] 0 [1/2, 1/2]
      [false, false] (by decide)

theorem maskedFill_self (g : List (List ℕ)) (v : ℕ) :
    maskedFill g (g.map (fun row => row.map (fun x => decide (x = v)))) v = g := by
  unfold maskedFill
  induction g with
  | nil => rfl
  | cons row rest ih =>
    simp only [List.map_cons, List.zipWith_cons_cons, ih]
    congr 1
    induction row with
    | nil => rfl
    | cons x xs ihx =>
      simp only [List.map_cons, List.zipWith_cons_cons, ihx]
      congr 1
      by_cases hx : x = v
      · simp [hx]
      · simp [hx]

theorem initialize_state_zMasked (V nCodebooks nCond : ℕ) (codes : List (List ℕ))
    (S : ℕ) : (initialize_state V nCodebooks nCond codes S).zMasked = codes := by
  unfold initialize_state
  simp only []
  exact maskedFill_self codes (V * nCodebooks)

theorem initialize_state_z (V nCodebooks nCond : ℕ) (codes : List (List ℕ))
    (S : ℕ) : (initialize_state V nCodebooks nCond codes S).z = codes := rfl

theorem generate_step_cond_rows (V nCodebooks nCond : ℕ) (E lg gam : ℚ → ℚ)
    (st : GenerationState) (temperature mask_temperature : ℚ) (tf : Bool) (tm : ℚ)
    (tmt : ℕ) (tp : Option ℚ) (sc : ℚ) (logits : List (List ℚ)) (us uniforms : List ℚ)
    (st2 : GenerationState)
    (h : generate_step V nCodebooks nCond E lg gam st temperature mask_temperature
      tf tm tmt tp sc logits us uniforms = some st2)
    (hlen : nCond ≤ st.z.length) :
    st2.z = st.z ∧ st2.zMasked.take nCond = st.z.take nCond := by
  obtain ⟨s0, p0, mN, hsf, hmk, hst2⟩ := generate_step_some_inv V nCodebooks nCond E lg
    gam st temperature mask_temperature tf tm tmt tp sc logits us uniforms st2 h
  have htlen : (st.z.take nCond).length = nCond := by
    rw [List.length_take]
    omega
  constructor
  · rw [hst2]
  · rw [hst2]
    have hgoal : (st.z.take nCond ++ codebook_unflatten
        (List.zipWith (fun m s => if m then V * nCodebooks else s) mN
          (genSampled V nCodebooks nCond st s0)) st.nInferCodebooks).take nCond =
        st.z.take nCond := by
      rw [List.take_append_of_le_length (by rw [htlen]), List.take_take]
      simp
    exact hgoal

theorem genLoop_cond_rows (V nCodebooks nCond : ℕ) (E lg gam : ℚ → ℚ)
    (temperature mask_temperature : ℚ) (tf : Bool) (tm : ℚ) (tmt : ℕ)
    (tp : Option ℚ) (sc : ℚ) :
    ∀ (inputs : List (List (List ℚ) × List ℚ × List ℚ)) (st st2 : GenerationState),
      genLoop V nCodebooks nCond E lg gam temperature mask_temperature tf tm tmt tp sc
        inputs st = some st2 →
      nCond ≤ st.z.length →
      st.zMasked.take nCond = st.z.take nCond →
      st2.z = st.z ∧ st2.zMasked.take nCond = st.z.take nCond
  | [], st, st2, h, _, hpre => by
    have hss : st2 = st := by
      unfold genLoop at h
      exact (Option.some_inj.mp h).symm
    rw [hss]
    exact ⟨rfl, hpre⟩
  | inp :: rest, st, st2, h, hlen, hpre => by
    unfold genLoop at h
    revert h
    cases hstep : generate_step V nCodebooks nCond E lg gam st temperature
        mask_temperature tf tm tmt tp sc inp.1 inp.2.1 inp.2.2 with
    | none => intro h; exact absurd h (by simp)
    | some stM =>
      intro h
      have hcr := generate_step_cond_rows V nCodebooks nCond E lg gam st temperature
        mask_temperature tf tm tmt tp sc inp.1 inp.2.1 inp.2.2 stM hstep hlen
      have hlenM : nCond ≤ stM.z.length := by rw [hcr.1]; exact hlen
      have hpreM : stM.zMasked.take nCond = stM.z.take nCond := by
        rw [hcr.1, hcr.2]
      have hrec := genLoop_cond_rows V nCodebooks nCond E lg gam temperature
        mask_temperature tf tm tmt tp sc rest stM st2 h hlenM hpreM
      rw [hcr.1] at hrec
      exact hrec

-- ## Stemgen (per-codebook-level) generation (transformer.py lines 301-565)

/-- `torch.linspace(1, 0, n)` entry `j`. -/
def linspace10 (n j : ℕ) : ℚ := if n ≤ 1 then 1 else 1 - (j : ℚ) / ((n : ℚ) - 1)

/-- Row transform of the confidence forcing: rows strictly above the
current level become all `-inf`. -/
def sgForceRow (level : ℕ) : ℕ × List Conf → List Conf :=
  fun pr => if level + 1 ≤ pr.1 then pr.2.map (fun _ => (⊥ : Conf)) else pr.2

/-- The confidence forcing of `stemgen_generate` (transformer.py lines
418-426): unflatten the selected probabilities into infer-codebook
rows, set every row strictly above the current level to `-inf`
(`selected_probs[:, codebook_level+1:, :] = -inf`; the line for the
rows below the level is commented out in the source), and flatten
back. -/
def stemgenForceProbs (level nInfer : ℕ) (sp : List ℚ) : List Conf :=
  codebook_flatten ((codebook_unflatten (sp.map confFin) nInfer).enum.map
    (sgForceRow level))

/-- `codebook_flatten(z_masked[:, n_conditioning_codebooks:, :])`
(transformer.py line 433), on the raw grid. -/
def sgFlatZ (nCond : ℕ) (zMasked : List (List ℕ)) : List ℕ :=
  codebook_flatten (zMasked.drop nCond)

/-- `mask = (z_masked == mask_token)` on the flattened grid (line 435). -/
def sgMaskF (V nCodebooks nCond : ℕ) (zMasked : List (List ℕ)) : List Bool :=
  (sgFlatZ nCond zMasked).map (fun v => decide (v = V * nCodebooks))

/-- `sampled_z = torch.where(mask, sampled_z, z_masked)` (line 442). -/
def sgSampled (V nCodebooks nCond : ℕ) (zMasked : List (List ℕ))
    (sampledZ0 : List ℕ) : List ℕ :=
  zipWith3 (fun m s zc => if m then s else zc) (sgMaskF V nCodebooks nCond zMasked)
    sampledZ0 (sgFlatZ nCond zMasked)

/-- The `num_to_mask` computation of the stemgen inner loop
(lines 448-463): `floor(gamma(r) * num_mask_tokens_at_start)`, clamped
on every step but the last to `max(1, min(level-row masked count - 1, ·))`. -/
def sgNumToMask (gam : ℚ → ℚ) (r : ℚ) (N i nsteps level nInfer : ℕ)
    (maskF : List Bool) : ℤ :=
  if i ≠ nsteps - 1 then
    max 1 (min ((((codebook_unflatten maskF nInfer).getD level []).count true : ℤ) - 1)
      (Int.floor (gam r * N)))
  else Int.floor (gam r * N)

/-- Level-row confidences fed to `mask_by_random_topk` (lines 466-485):
unmasked positions forced to `+inf`, the causal linspace weight added,
then row `level` of the unflattened confidences. -/
def sgSpCur (level nInfer flatLen : ℕ) (maskF : List Bool) (spForced : List Conf)
    (causal_weight : ℚ) : List Conf :=
  let spFlat := List.zipWith (fun m p => if m then p else (⊤ : Conf)) maskF spForced
  let spFlat2 := spFlat.enum.map
    (fun pr => confAddFin pr.2 (linspace10 flatLen pr.1 * causal_weight))
  (codebook_unflatten spFlat2 nInfer).getD level []

/-- The updated flat `z_masked` (lines 487-499): row `level` of the mask
is replaced by the new level mask, the grid is re-flattened, and masked
positions become the mask token. -/
def sgZNew (V nCodebooks level nInfer : ℕ) (maskF maskCur : List Bool)
    (sampledZ : List ℕ) : List ℕ :=
  let maskG := (codebook_unflatten maskF nInfer).set level maskCur
  List.zipWith (fun m s => if m then V * nCodebooks else s) (codebook_flatten maskG)
    sampledZ

/-- One iteration of the inner sampling loop of `stemgen_generate` for
codebook level `level` (transformer.py lines 383-509), per batch
element, with the model logits and random variates explicit.  `N` is
the level's `num_mask_tokens_at_start`; the returned pair is the
updated `z_masked` grid and the `sampled_z` flat sequence (whose last
value the function's epilogue unflattens). -/
def stemgenStep (V nCodebooks nCond level : ℕ) (E lg gam : ℚ → ℚ)
    (z zMasked : List (List ℕ)) (N : ℕ) (i nsteps : ℕ)
    (sampling_temperature mask_temperature : ℚ) (tf : Bool) (tm : ℚ) (tmt : ℕ)
    (tp : Option ℚ) (sc causal_weight : ℚ)
    (logits : List (List ℚ)) (us uniforms : List ℚ) :
    Option (List (List ℕ) × List ℕ) :=
  match sample_from_logits E lg logits (decide ((i : ℚ) / nsteps ≤ sc))
      sampling_temperature none tp tf tm tmt us with
  | none => none
  | some (sampledZ0, selectedProbs0) =>
    match mask_by_random_topk lg
        (sgNumToMask gam (((i : ℚ) + 1) / nsteps) N i nsteps level (nCodebooks - nCond)
          (sgMaskF V nCodebooks nCond zMasked))
        (sgSpCur level (nCodebooks - nCond) (sgFlatZ nCond zMasked).length
          (sgMaskF V nCodebooks nCond zMasked)
          (stemgenForceProbs level (nCodebooks - nCond) selectedProbs0) causal_weight)
        (mask_temperature * (1 - ((i : ℚ) + 1) / nsteps)) uniforms with
    | none => none
    | some maskCur =>
      some (z.take nCond ++ codebook_unflatten
        (sgZNew V nCodebooks level (nCodebooks - nCond)
          (sgMaskF V nCodebooks nCond zMasked) maskCur
          (sgSampled V nCodebooks nCond zMasked sampledZ0)) (nCodebooks - nCond),
        sgSampled V nCodebooks nCond zMasked sampledZ0)

/-- The inner `for i in range(nsteps)` loop of `stemgen_generate`,
threading `z_masked` and the most recent `sampled_z`. -/
def stemgenInner (V nCodebooks nCond level : ℕ) (E lg gam : ℚ → ℚ)
    (z : List (List ℕ)) (N nsteps : ℕ)
    (sampling_temperature mask_temperature : ℚ) (tf : Bool) (tm : ℚ) (tmt : ℕ)
    (tp : Option ℚ) (sc causal_weight : ℚ) :
    List (List (List ℚ) × List ℚ × List ℚ) → ℕ → List (List ℕ) → Option (List ℕ) →
      Option (List (List ℕ) × Option (List ℕ))
  | [], _, zM, samp => some (zM, samp)
  | inp :: rest, i, zM, _ =>
    match stemgenStep V nCodebooks nCond level E lg gam z zM N i nsteps
        sampling_temperature mask_temperature tf tm tmt tp sc causal_weight
        inp.1 inp.2.1 inp.2.2 with
    | none => none
    | some pr => stemgenInner V nCodebooks nCond level E lg gam z N nsteps
        sampling_temperature mask_temperature tf tm tmt tp sc causal_weight
        rest (i + 1) pr.1 (some pr.2)

/-- The outer `for codebook_level, nsteps in enumerate(steps)` loop of
`stemgen_generate` (lines 368-383): before each level's sub-loop the
original mask is re-applied on that level's row and the level's
`num_mask_tokens_at_start` is counted. -/
def stemgenLevels (V nCodebooks nCond : ℕ) (E lg gam : ℚ → ℚ)
    (z : List (List ℕ)) (origMask : List (List Bool))
    (sampling_temperature mask_temperature : ℚ) (tf : Bool) (tm : ℚ) (tmt : ℕ)
    (tp : Option ℚ) (sc causal_weight : ℚ) :
    List (ℕ × ℕ) → List (List (List (List ℚ) × List ℚ × List ℚ)) →
      List (List ℕ) → Option (List ℕ) → Option (List (List ℕ) × Option (List ℕ))
  | [], _, zM, samp => some (zM, samp)
  | (level, nsteps) :: rest, inpss, zM, samp =>
    let maskTok := V * nCodebooks
    let zM0 := zM.set level (List.zipWith (fun m v => if m then maskTok else v)
      (origMask.getD level []) (zM.getD level []))
    let N := (zM0.getD level []).count maskTok
    match stemgenInner V nCodebooks nCond level E lg gam z N nsteps
        sampling_temperature mask_temperature tf tm tmt tp sc causal_weight
        (inpss.headD []) 0 zM0 samp with
    | none => none
    | some pr => stemgenLevels V nCodebooks nCond E lg gam z origMask
        sampling_temperature mask_temperature tf tm tmt tp sc causal_weight
        rest inpss.tail pr.1 pr.2

/-- `VampNet.stemgen_generate` (transformer.py lines 301-565) per batch
element with `start_tokens` and `mask` given (the `None` defaults are
particular values of these), `return_signal = false`, and the codec /
model external.  The per-level step list is padded with `1`s and
truncated to `n_infer_codebooks` (line 365-367).  When no sampling
iteration ever runs, the source raises a `NameError` on `sampled_z`;
that is the `none` result. -/
def stemgen_generate (V nCodebooks nCond : ℕ) (E lg gam : ℚ → ℚ)
    (start_tokens : List (List ℕ)) (mask : List (List Bool)) (_sampling_steps : List ℕ)
    (sampling_temperature mask_temperature : ℚ) (tf : Bool) (tm : ℚ) (tmt : ℕ)
    (tp : Option ℚ) (sc causal_weight : ℚ)
    (inputs : List (List (List (List ℚ) × List ℚ × List ℚ))) :
    Option (List (List ℕ)) :=
  match stemgenLevels V nCodebooks nCond E lg gam start_tokens mask
      sampling_temperature mask_temperature tf tm tmt tp sc causal_weight
      ((_sampling_steps ++ List.replicate ((nCodebooks - nCond) -
        _sampling_steps.length) 1).take (nCodebooks - nCond)).enum
      inputs (maskedFill start_tokens mask (V * nCodebooks)) none with
  | none => none
  | some (_, none) => none
  | some (_, some sampled) =>
    some (start_tokens.take nCond ++ codebook_unflatten sampled (nCodebooks - nCond))

theorem stemgen_generate_some_inv (V nCodebooks nCond : ℕ) (E lg gam : ℚ → ℚ)
    (start_tokens : List (List ℕ)) (mask : List (List Bool)) (ss : List ℕ)
    (stemp mt : ℚ) (tf : Bool) (tm : ℚ) (tmt : ℕ) (tp : Option ℚ) (sc cw : ℚ)
    (inputs : List (List (List (List ℚ) × List ℚ × List ℚ))) (out : List (List ℕ))
    (h : stemgen_generate V nCodebooks nCond E lg gam start_tokens mask ss stemp mt
      tf tm tmt tp sc cw inputs = some out) :
    ∃ sampled : List ℕ,
      out = start_tokens.take nCond ++ codebook_unflatten sampled (nCodebooks - nCond) := by
  unfold stemgen_generate at h
  rcases hlv : stemgenLevels V nCodebooks nCond E lg gam start_tokens mask stemp mt
      tf tm tmt tp sc cw
      ((ss ++ List.replicate ((nCodebooks - nCond) - ss.length) 1).take
        (nCodebooks - nCond)).enum
      inputs (maskedFill start_tokens mask (V * nCodebooks)) none
    with _ | ⟨zM, samp⟩
  · rw [hlv] at h
    exact absurd h (by simp)
  · rw [hlv] at h
    rcases samp with _ | sampled
    · exact absurd h (by simp)
    · exact ⟨sampled, (Option.some_inj.mp h).symm⟩

/-- C6: in both generation procedures the conditioning codebook rows
(row index below `n_conditioning_codebooks`) of the returned grid are
bit-identical to the corresponding rows of the input grid: `generate`
threads `z` unchanged through every step and each step rebuilds
`z_masked` as `z[:, :n_cond] ++ unflatten(...)`, and `stemgen_generate`
returns `cat(z[:, :n_cond], unflatten(sampled_z))` with `z` the
untouched input. -/
theorem c6_conditioning_invariant :
    (∀ (V nCodebooks nCond : ℕ) (E lg gam : ℚ → ℚ) (codes : List (List ℕ)) (S : ℕ)
       (temp mt : ℚ) (tf : Bool) (tm : ℚ) (tmt : ℕ) (tp : Option ℚ) (sc : ℚ)
       (inputs : List (List (List ℚ) × List ℚ × List ℚ)) (out : List (List ℕ)),
       generate V nCodebooks nCond E lg gam codes S temp mt tf tm tmt tp sc inputs =
         some out →
       nCond ≤ codes.length →
       out.take nCond = codes.take nCond) ∧
    (∀ (V nCodebooks nCond : ℕ) (E lg gam : ℚ → ℚ) (start_tokens : List (List ℕ))
       (mask : List (List Bool)) (ss : List ℕ) (stemp mt : ℚ) (tf : Bool) (tm : ℚ)
       (tmt : ℕ) (tp : Option ℚ) (sc cw : ℚ)
       (inputs : List (List (List (List ℚ) × List ℚ × List ℚ))) (out : List (List ℕ)),
       stemgen_generate V nCodebooks nCond E lg gam start_tokens mask ss stemp mt tf tm
         tmt tp sc cw inputs = some out →
       nCond ≤ start_tokens.length →
       out.take nCond = start_tokens.take nCond) := by
  constructor
  · intro V nCodebooks nCond E lg gam codes S temp mt tf tm tmt tp sc inputs out h hlen
    unfold generate at h
    revert h
    cases hx : genLoop V nCodebooks nCond E lg gam temp mt tf tm tmt tp sc inputs
        (initialize_state V nCodebooks nCond codes S) with
    | none => intro h; exact absurd h (by simp)
    | some st2 =>
      intro h
      have hout : out = st2.zMasked := (Option.some_inj.mp h).symm
      have hinit_z : (initialize_state V nCodebooks nCond codes S).z = codes :=
        initialize_state_z V nCodebooks nCond codes S
      have hlen2 : nCond ≤ (initialize_state V nCodebooks nCond codes S).z.length := by
        rw [hinit_z]
        exact hlen
      have hpre : (initialize_state V nCodebooks nCond codes S).zMasked.take nCond =
          (initialize_state V nCodebooks nCond codes S).z.take nCond := by
        rw [initialize_state_zMasked, hinit_z]
      have hcr := genLoop_cond_rows V nCodebooks nCond E lg gam temp mt tf tm tmt tp sc
        inputs (initialize_state V nCodebooks nCond codes S) st2 hx hlen2 hpre
      rw [hout, hcr.2, hinit_z]
  · intro V nCodebooks nCond E lg gam start_tokens mask ss stemp mt tf tm tmt tp sc cw
      inputs out h hlen
    obtain ⟨sampled, hout⟩ := stemgen_generate_some_inv V nCodebooks nCond E lg gam
      start_tokens mask ss stemp mt tf tm tmt tp sc cw inputs out h
    have htlen : (start_tokens.take nCond).length = nCond := by
      rw [List.length_take]
      omega
    rw [hout, List.take_append_of_le_length (by rw [htlen]), List.take_take]
    simp

/-- C6 witness: concrete runs of both `generate` and `stemgen_generate`
whose outputs keep the single conditioning row intact. -/
theorem c6_witness :
    ([[1, 1], [0, 2]] : List (List ℕ)).take 1 = ([[1, 1], [4, 2]] : List (List ℕ)).take 1 ∧
    ([[3, 1], [0, 2]] : List (List ℕ)).take 1 = ([[3, 1], [4, 2]] : List (List ℕ)).take 1 :=
  ⟨c6_conditioning_invariant.1 2 2 1 (fun _ => 1) (fun _ => 0) (fun _ => 0)
      [[1, 1], [4, 2]] 1 1 1 false 0 1 none 1 [([[0, 0], [0, 0]], [0, 0], [1/2, 1/2])]
      [[1, 1], [0, 2]] (by decide) (by decide),
   c6_conditioning_invariant.2 2 2 1 (fun _ => 1) (fun _ => 0) (fun _ => 0)
      [[3, 1], [4, 2]] [[false, false], [true, false]] [1] 1 1 false 0 1 none 1 0
      [[([[0, 0], [0, 0]], [0, 0], [1/2])]] [[3, 1], [0, 2]] (by decide) (by decide)⟩

theorem conf_default_eq_bot : (default : Conf) = ⊥ := rfl

theorem headD_eq_getD_zero {α : Type} (l : List (List α)) : l.headD [] = l.getD 0 [] := by
  cases l <;> rfl

theorem getD_set_ne {α : Type} (l : List α) (i j : ℕ) (a d : α) (hij : i ≠ j) :
    (l.set i a).getD j d = l.getD j d := by
  by_cases hj : j < l.length
  · rw [List.getD_eq_getElem _ _ (by rw [List.length_set]; exact hj),
      List.getD_eq_getElem _ _ hj, List.getElem_set_ne hij]
  · rw [List.getD_eq_default _ _ (by rw [List.length_set]; omega),
      List.getD_eq_default _ _ (by omega)]

theorem getD_set_eq {α : Type} (l : List α) (i : ℕ) (a d : α) (hi : i < l.length) :
    (l.set i a).getD i d = a := by
  rw [List.getD_eq_getElem _ _ (by rw [List.length_set]; exact hi)]
  exact List.getElem_set_self _

theorem stemgenForceProbs_length (level nInfer : ℕ) (sp : List ℚ) (hnI : 0 < nInfer) :
    (stemgenForceProbs level nInfer sp).length = sp.length / nInfer * nInfer := by
  unfold stemgenForceProbs
  rw [codebook_flatten_length, List.length_map, List.enum_length,
    codebook_unflatten_length]
  have h0g : 0 < (codebook_unflatten (sp.map confFin) nInfer).length := by
    rw [codebook_unflatten_length]; exact hnI
  rw [headD_eq_getD_zero, enum_map_out_getD _ _ _ _ h0g]
  unfold sgForceRow
  rw [if_neg (by omega)]
  have hr : ((codebook_unflatten (sp.map confFin) nInfer).getD 0 []).length =
      sp.length / nInfer := by
    rw [codebook_unflatten_row_length _ _ _ hnI, List.length_map]
  rw [List.getD_eq_getElem _ [] h0g] at hr
  rw [hr]

theorem sgFlatZ_length (nCodebooks nCond T : ℕ) (zM : List (List ℕ))
    (hwf : GridWF nCodebooks T zM) (hcond : nCond < nCodebooks) :
    (sgFlatZ nCond zM).length = T * (nCodebooks - nCond) := by
  unfold sgFlatZ
  rw [codebook_flatten_length, drop_headD_length T nCodebooks nCond zM hwf hcond,
    List.length_drop, hwf.1]

theorem sgMaskF_length (V nCodebooks nCond T : ℕ) (zM : List (List ℕ))
    (hwf : GridWF nCodebooks T zM) (hcond : nCond < nCodebooks) :
    (sgMaskF V nCodebooks nCond zM).length = T * (nCodebooks - nCond) := by
  unfold sgMaskF
  rw [List.length_map, sgFlatZ_length nCodebooks nCond T zM hwf hcond]

/-- Above-level positions of the forced confidences are `-inf`: the flat
position of time step `t` in infer-relative codebook row `c` is
`t * n_infer + c`, and for `c > level` the whole row was overwritten. -/
theorem stemgenForceProbs_above (level nInfer T : ℕ) (sp : List ℚ)
    (hsp : sp.length = T * nInfer) (hnI : 0 < nInfer) (c t : ℕ) (hc : c < nInfer)
    (habove : level + 1 ≤ c) (ht : t < T) :
    (stemgenForceProbs level nInfer sp).getD (t * nInfer + c) ⊥ = ⊥ := by
  unfold stemgenForceProbs
  have hgl : (codebook_unflatten (sp.map confFin) nInfer).length = nInfer :=
    codebook_unflatten_length _ _
  have hrow : ∀ c', c' < nInfer →
      ((codebook_unflatten (sp.map confFin) nInfer).getD c' []).length = T := by
    intro c' hc'
    rw [codebook_unflatten_row_length _ _ _ hc', List.length_map, hsp,
      Nat.mul_div_cancel _ hnI]
  have hg2l : ((codebook_unflatten (sp.map confFin) nInfer).enum.map
      (sgForceRow level)).length = nInfer := by
    rw [List.length_map, List.enum_length, hgl]
  have hcg : c < (codebook_unflatten (sp.map confFin) nInfer).length := by
    rw [hgl]
    exact hc
  have h0g : 0 < (codebook_unflatten (sp.map confFin) nInfer).length := by
    rw [hgl]
    exact hnI
  have hhead : ((((codebook_unflatten (sp.map confFin) nInfer).enum.map
      (sgForceRow level)).headD []).length) = T := by
    rw [headD_eq_getD_zero, enum_map_out_getD _ _ _ _ h0g]
    unfold sgForceRow
    rw [if_neg (by omega)]
    have hr := hrow 0 hnI
    rw [List.getD_eq_getElem _ [] h0g] at hr
    exact hr
  have hmain := codebook_flatten_getD
    ((codebook_unflatten (sp.map confFin) nInfer).enum.map (sgForceRow level)) c t
    (by rw [hg2l]; exact hc) (by rw [hhead]; exact ht)
  rw [hg2l] at hmain
  rw [conf_default_eq_bot] at hmain
  rw [hmain, enum_map_out_getD _ _ _ _ hcg]
  unfold sgForceRow
  rw [if_pos habove]
  have htl : t < ((codebook_unflatten (sp.map confFin) nInfer)[c]).length := by
    have hr := hrow c hc
    rw [List.getD_eq_getElem _ [] hcg] at hr
    rw [hr]
    exact ht
  rw [List.getD_eq_getElem _ _ (by rw [List.length_map]; exact htl), List.getElem_map]

theorem stemgenStep_some_inv (V nCodebooks nCond level : ℕ) (E lg gam : ℚ → ℚ)
    (z zMasked : List (List ℕ)) (N i nsteps : ℕ) (stemp mt : ℚ) (tf : Bool) (tm : ℚ)
    (tmt : ℕ) (tp : Option ℚ) (sc cw : ℚ) (logits : List (List ℚ))
    (us uniforms : List ℚ) (pr : List (List ℕ) × List ℕ)
    (h : stemgenStep V nCodebooks nCond level E lg gam z zMasked N i nsteps stemp mt
      tf tm tmt tp sc cw logits us uniforms = some pr) :
    ∃ (s0 : List ℕ) (p0 : List ℚ) (mC : List Bool),
      sample_from_logits E lg logits (decide ((i : ℚ) / nsteps ≤ sc)) stemp none tp
        tf tm tmt us = some (s0, p0) ∧
      mask_by_random_topk lg
        (sgNumToMask gam (((i : ℚ) + 1) / nsteps) N i nsteps level
          (nCodebooks - nCond) (sgMaskF V nCodebooks nCond zMasked))
        (sgSpCur level (nCodebooks - nCond) (sgFlatZ nCond zMasked).length
          (sgMaskF V nCodebooks nCond zMasked)
          (stemgenForceProbs level (nCodebooks - nCond) p0) cw)
        (mt * (1 - ((i : ℚ) + 1) / nsteps)) uniforms = some mC ∧
      pr = (z.take nCond ++ codebook_unflatten
          (sgZNew V nCodebooks level (nCodebooks - nCond)
            (sgMaskF V nCodebooks nCond zMasked) mC
            (sgSampled V nCodebooks nCond zMasked s0)) (nCodebooks - nCond),
        sgSampled V nCodebooks nCond zMasked s0) := by
  unfold stemgenStep at h
  rcases hsf : sample_from_logits E lg logits (decide ((i : ℚ) / nsteps ≤ sc)) stemp
      none tp tf tm tmt us with _ | ⟨s0, p0⟩
  · rw [hsf] at h
    exact absurd h (by simp)
  · simp only [hsf] at h
    rcases hmk : mask_by_random_topk lg
        (sgNumToMask gam (((i : ℚ) + 1) / nsteps) N i nsteps level
          (nCodebooks - nCond) (sgMaskF V nCodebooks nCond zMasked))
        (sgSpCur level (nCodebooks - nCond) (sgFlatZ nCond zMasked).length
          (sgMaskF V nCodebooks nCond zMasked)
          (stemgenForceProbs level (nCodebooks - nCond) p0) cw)
        (mt * (1 - ((i : ℚ) + 1) / nsteps)) uniforms with _ | mC
    · rw [hmk] at h
      exact absurd h (by simp)
    · simp only [hmk] at h
      exact ⟨s0, p0, mC, rfl, hmk, (Option.some_inj.mp h).symm⟩

theorem getD_bool_default (l : List Bool) (j : ℕ) : l.getD j default = l.getD j false := rfl

/-- One stemgen sampling step never changes an inferred `z_masked` row
other than the current codebook level: only row `level` of the mask is
rewritten, masked positions of the other rows stay the mask token and
unmasked ones keep their token. -/
theorem stemgenStep_rows_ne_level (V nCodebooks nCond level T : ℕ) (E lg gam : ℚ → ℚ)
    (z zMasked : List (List ℕ)) (N i nsteps : ℕ) (stemp mt : ℚ) (tf : Bool) (tm : ℚ)
    (tmt : ℕ) (tp : Option ℚ) (sc cw : ℚ) (logits : List (List ℚ))
    (us uniforms : List ℚ) (pr : List (List ℕ) × List ℕ) (c : ℕ)
    (h : stemgenStep V nCodebooks nCond level E lg gam z zMasked N i nsteps stemp mt
      tf tm tmt tp sc cw logits us uniforms = some pr)
    (hwf : GridWF nCodebooks T zMasked) (hcond : nCond < nCodebooks)
    (hz : nCond ≤ z.length) (hlvl : level < nCodebooks - nCond)
    (hlog : logits.length = T * (nCodebooks - nCond)) (hus : us.length = logits.length)
    (huni : uniforms.length = T) (hc : c < nCodebooks - nCond) (hne : c ≠ level) :
    pr.1.getD (nCond + c) [] = zMasked.getD (nCond + c) [] := by
  obtain ⟨s0, p0, mC, hsf, hmk, hpr⟩ := stemgenStep_some_inv V nCodebooks nCond level
    E lg gam z zMasked N i nsteps stemp mt tf tm tmt tp sc cw logits us uniforms pr h
  have hnI : 0 < nCodebooks - nCond := by omega
  have hflat : (sgFlatZ nCond zMasked).length = T * (nCodebooks - nCond) :=
    sgFlatZ_length nCodebooks nCond T zMasked hwf hcond
  have hmaskF : (sgMaskF V nCodebooks nCond zMasked).length =
      T * (nCodebooks - nCond) := sgMaskF_length V nCodebooks nCond T zMasked hwf hcond
  have hs0 := sample_from_logits_some_lengths E lg logits _ stemp tp tf tm tmt us s0 p0
    hsf hus
  have hs0l : s0.length = T * (nCodebooks - nCond) := by rw [hs0.1, hlog]
  have hp0l : p0.length = T * (nCodebooks - nCond) := by rw [hs0.2, hlog]
  have hsampled : (sgSampled V nCodebooks nCond zMasked s0).length =
      T * (nCodebooks - nCond) := by
    unfold sgSampled
    rw [zipWith3_length, hmaskF, hs0l, hflat]
    simp
  have hspF : (stemgenForceProbs level (nCodebooks - nCond) p0).length =
      T * (nCodebooks - nCond) := by
    rw [stemgenForceProbs_length _ _ _ hnI, hp0l, Nat.mul_div_cancel _ hnI]
  have hspCur : (sgSpCur level (nCodebooks - nCond) (sgFlatZ nCond zMasked).length
      (sgMaskF V nCodebooks nCond zMasked)
      (stemgenForceProbs level (nCodebooks - nCond) p0) cw).length = T := by
    simp only [sgSpCur]
    rw [codebook_unflatten_row_length _ _ _ hlvl, List.length_map, List.enum_length,
      List.length_zipWith, hmaskF, hspF, min_self, Nat.mul_div_cancel _ hnI]
  have hmClen : mC.length = T := by
    have hml := mask_by_random_topk_length lg _ _ _ uniforms mC hmk
    rw [topkConfidence_length, hspCur, huni, min_self] at hml
    exact hml
  have hunfl : (codebook_unflatten (sgMaskF V nCodebooks nCond zMasked)
      (nCodebooks - nCond)).length = nCodebooks - nCond := codebook_unflatten_length _ _
  have hmGlen : ((codebook_unflatten (sgMaskF V nCodebooks nCond zMasked)
      (nCodebooks - nCond)).set level mC).length = nCodebooks - nCond := by
    rw [List.length_set, hunfl]
  have hmGrow : ∀ c', c' < nCodebooks - nCond →
      ((((codebook_unflatten (sgMaskF V nCodebooks nCond zMasked)
        (nCodebooks - nCond)).set level mC).getD c' []).length) = T := by
    intro c' hc'
    by_cases hcl : level = c'
    · rw [← hcl, getD_set_eq _ _ _ _ (by rw [hunfl]; exact hlvl)]
      exact hmClen
    · rw [getD_set_ne _ _ _ _ _ hcl, codebook_unflatten_row_length _ _ _ hc', hmaskF,
        Nat.mul_div_cancel _ hnI]
  have hmGhead : ((((codebook_unflatten (sgMaskF V nCodebooks nCond zMasked)
      (nCodebooks - nCond)).set level mC).headD []).length) = T := by
    rw [headD_eq_getD_zero]
    exact hmGrow 0 hnI
  have hmF2len : (codebook_flatten ((codebook_unflatten
      (sgMaskF V nCodebooks nCond zMasked) (nCodebooks - nCond)).set level mC)).length =
      T * (nCodebooks - nCond) := by
    rw [codebook_flatten_length, hmGhead, hmGlen]
  have hzNewlen : (sgZNew V nCodebooks level (nCodebooks - nCond)
      (sgMaskF V nCodebooks nCond zMasked) mC
      (sgSampled V nCodebooks nCond zMasked s0)).length = T * (nCodebooks - nCond) := by
    simp only [sgZNew]
    rw [List.length_zipWith, hmF2len, hsampled, min_self]
  have htklen : (z.take nCond).length = nCond := by
    rw [List.length_take]
    omega
  have hpr1 : pr.1 = z.take nCond ++ codebook_unflatten
      (sgZNew V nCodebooks level (nCodebooks - nCond)
        (sgMaskF V nCodebooks nCond zMasked) mC
        (sgSampled V nCodebooks nCond zMasked s0)) (nCodebooks - nCond) := by
    rw [hpr]
  rw [hpr1]
  rw [getD_append_right _ _ _ _ (by rw [htklen]; omega)
    (by rw [htklen, codebook_unflatten_length]; omega), htklen,
    show nCond + c - nCond = c by omega]
  rw [show zMasked.getD (nCond + c) [] = (zMasked.drop nCond).getD c [] from
    (getD_drop zMasked nCond c []).symm]
  have hdl : (zMasked.drop nCond).length = nCodebooks - nCond := by
    rw [List.length_drop, hwf.1]
  have hcd : c < (zMasked.drop nCond).length := by
    rw [hdl]
    exact hc
  have hLrowlen : ((codebook_unflatten (sgZNew V nCodebooks level (nCodebooks - nCond)
      (sgMaskF V nCodebooks nCond zMasked) mC
      (sgSampled V nCodebooks nCond zMasked s0)) (nCodebooks - nCond)).getD c
      []).length = T := by
    rw [codebook_unflatten_row_length _ _ _ hc, hzNewlen, Nat.mul_div_cancel _ hnI]
  have hRrowlen : ((zMasked.drop nCond).getD c []).length = T := by
    rw [List.getD_eq_getElem _ [] hcd]
    exact hwf.2 _ (List.mem_of_mem_drop (List.getElem_mem hcd))
  apply List.ext_getElem
  · rw [hLrowlen, hRrowlen]
  · intro t ht1 ht2
    have htT : t < T := hLrowlen ▸ ht1
    rw [← List.getD_eq_getElem _ 0 ht1, ← List.getD_eq_getElem _ 0 ht2]
    have hzNt : t < (sgZNew V nCodebooks level (nCodebooks - nCond)
        (sgMaskF V nCodebooks nCond zMasked) mC
        (sgSampled V nCodebooks nCond zMasked s0)).length / (nCodebooks - nCond) := by
      rw [hzNewlen, Nat.mul_div_cancel _ hnI]
      exact htT
    have hunf := codebook_unflatten_getD (sgZNew V nCodebooks level (nCodebooks - nCond)
      (sgMaskF V nCodebooks nCond zMasked) mC
      (sgSampled V nCodebooks nCond zMasked s0)) (nCodebooks - nCond) c t hc hzNt
    simp only [getD_nat_default] at hunf
    rw [hunf]
    set j := t * (nCodebooks - nCond) + c with hj
    have hjlt : j < T * (nCodebooks - nCond) := by
      have h1 : j < (t + 1) * (nCodebooks - nCond) := by
        rw [hj, Nat.succ_mul]
        omega
      have h2 : (t + 1) * (nCodebooks - nCond) ≤ T * (nCodebooks - nCond) :=
        Nat.mul_le_mul_right _ (by omega)
      omega
    have hcell : (sgFlatZ nCond zMasked).getD j 0 =
        ((zMasked.drop nCond).getD c []).getD t 0 := by
      unfold sgFlatZ
      have hfg := codebook_flatten_getD (zMasked.drop nCond) c t hcd
        (by rw [drop_headD_length T nCodebooks nCond zMasked hwf hcond]; exact htT)
      rw [hdl] at hfg
      simp only [getD_nat_default] at hfg
      rw [hj, hfg]
    rw [← hcell]
    have hmF2j : (codebook_flatten ((codebook_unflatten
        (sgMaskF V nCodebooks nCond zMasked) (nCodebooks - nCond)).set level mC)).getD
        j false = (sgMaskF V nCodebooks nCond zMasked).getD j false := by
      have hfg := codebook_flatten_getD ((codebook_unflatten
        (sgMaskF V nCodebooks nCond zMasked) (nCodebooks - nCond)).set level mC) c t
        (by rw [hmGlen]; exact hc) (by rw [hmGhead]; exact htT)
      rw [hmGlen] at hfg
      simp only [getD_bool_default] at hfg
      rw [hj, hfg, getD_set_ne _ _ _ _ _ (fun he => hne he.symm)]
      have hunf2 := codebook_unflatten_getD (sgMaskF V nCodebooks nCond zMasked)
        (nCodebooks - nCond) c t hc
        (by rw [hmaskF, Nat.mul_div_cancel _ hnI]; exact htT)
      simp only [getD_bool_default] at hunf2
      rw [hunf2]
    have hjf : j < (sgFlatZ nCond zMasked).length := by
      rw [hflat]
      exact hjlt
    have hmFj : (sgMaskF V nCodebooks nCond zMasked).getD j false =
        decide ((sgFlatZ nCond zMasked).getD j 0 = V * nCodebooks) := by
      unfold sgMaskF
      rw [List.getD_eq_getElem _ false (by rw [List.length_map]; exact hjf),
        List.getElem_map, List.getD_eq_getElem _ 0 hjf]
    simp only [sgZNew]
    rw [zipWith_getD (fun m s => if m then V * nCodebooks else s) false 0 0 _ _ j
      (by rw [hmF2len]; exact hjlt) (by rw [hsampled]; exact hjlt)]
    rw [hmF2j]
    simp only [sgSampled]
    rw [zipWith3_getD (fun m s zc => if m then s else zc) false 0 0 0
      (sgMaskF V nCodebooks nCond zMasked) s0 (sgFlatZ nCond zMasked) j
      (by rw [hmaskF]; exact hjlt) (by rw [hs0l]; exact hjlt) hjf]
    cases hmb : (sgMaskF V nCodebooks nCond zMasked).getD j false with
    | false =>
      simp only [Bool.false_eq_true, if_false]
    | true =>
      rw [if_pos rfl]
      have hveq : (sgFlatZ nCond zMasked).getD j 0 = V * nCodebooks :=
        of_decide_eq_true (hmFj.symm.trans hmb)
      exact hveq.symm

/-- C9 (amended): during the sub-loop for codebook level `L` of
`stemgen_generate`, (1) the selected probability of every position in a
codebook level strictly above `L` is forced to `-inf` before the
re-masking selection, and (2) a sampling step leaves every inferred
`z_masked` row other than row `L` unchanged, because only row `L` of
the mask is rewritten — so no position outside level `L` is resolved
during that level's sub-loop.  Contrary to the claim, positions in
levels below `L` are not forced to `-inf`: that line is commented out
in the source, and their confidences survive the forcing. -/
theorem c9_level_isolation_amended :
    (∀ (level nInfer T : ℕ) (sp : List ℚ), sp.length = T * nInfer → 0 < nInfer →
      ∀ (c t : ℕ), c < nInfer → level + 1 ≤ c → t < T →
      (stemgenForceProbs level nInfer sp).getD (t * nInfer + c) ⊥ = ⊥) ∧
    (∀ (V nCodebooks nCond level T : ℕ) (E lg gam : ℚ → ℚ)
      (z zMasked : List (List ℕ)) (N i nsteps : ℕ) (stemp mt : ℚ) (tf : Bool)
      (tm : ℚ) (tmt : ℕ) (tp : Option ℚ) (sc cw : ℚ) (logits : List (List ℚ))
      (us uniforms : List ℚ) (pr : List (List ℕ) × List ℕ) (c : ℕ),
      stemgenStep V nCodebooks nCond level E lg gam z zMasked N i nsteps stemp mt
        tf tm tmt tp sc cw logits us uniforms = some pr →
      GridWF nCodebooks T zMasked → nCond < nCodebooks → nCond ≤ z.length →
      level < nCodebooks - nCond → logits.length = T * (nCodebooks - nCond) →
      us.length = logits.length → uniforms.length = T →
      c < nCodebooks - nCond → c ≠ level →
      pr.1.getD (nCond + c) [] = zMasked.getD (nCond + c) []) :=
  ⟨fun level nInfer T sp hsp hnI c t hc habove ht =>
      stemgenForceProbs_above level nInfer T sp hsp hnI c t hc habove ht,
   fun V nCodebooks nCond level T E lg gam z zMasked N i nsteps stemp mt tf tm tmt
      tp sc cw logits us uniforms pr c h hwf hcond hz hlvl hlog hus huni hc hne =>
      stemgenStep_rows_ne_level V nCodebooks nCond level T E lg gam z zMasked N i
        nsteps stemp mt tf tm tmt tp sc cw logits us uniforms pr c h hwf hcond hz
        hlvl hlog hus huni hc hne⟩

/-- C9 counterexample: with current level 1 of 2 inferred codebooks, the
below-level (row 0) selected probability survives the confidence
forcing untouched instead of being forced to `-inf`. -/
theorem c9_counterexample :
    (stemgenForceProbs 1 2 [5, 7]).getD 0 ⊥ = confFin 5 ∧ confFin 5 ≠ (⊥ : Conf) := by
  constructor
  · decide
  · decide

/-- C9 witness: the forcing sends an above-level position to `-inf` on a
concrete input, and a concrete stemgen step keeps an off-level row of
`z_masked` unchanged. -/
theorem c9_witness :
    (stemgenForceProbs 0 2 [5, 7]).getD (0 * 2 + 1) ⊥ = ⊥ ∧
    (([[1], [0], [2]], [0, 2]) : List (List ℕ) × List ℕ).1.getD (1 + 1) [] =
      ([[1], [6], [2]] : List (List ℕ)).getD (1 + 1) [] :=
  ⟨c9_level_isolation_amended.1 0 2 1 [5, 7] (by decide) (by decide) 1 0 (by decide)
      (by decide) (by decide),
   c9_level_isolation_amended.2 2 3 1 0 1 (fun _ => 1) (fun _ => 0) (fun _ => 0)
      [[1], [6], [2]] [[1], [6], [2]] 1 0 1 1 1 false 0 1 none 1 0 [[0, 0], [0, 0]]
      [0, 0] [1/2] ([[1], [0], [2]], [0, 2]) 1 (by decide) (by decide) (by decide)
      (by decide) (by decide) (by decide) (by decide) (by decide) (by decide)
      (by decide)⟩
